import Mathlib

set_option maxRecDepth 100000

/-!
Verification of the change-detection core of the 3GPP_change_detector
repository: a shallow embedding of `src/change_detection/detector.py`,
`src/utils/version_mapping.py`, `src/utils/vector_db.py` and
`scripts/cluster_events.py`, together with proofs about it.

Python floats are modelled as exact rationals (ℚ); Python dicts of the
version map as association lists; Python `difflib.SequenceMatcher`
(the library the detector delegates alignment and similarity to) is
embedded in full, including its autojunk "popular element" heuristic,
its tie-breaking and its extension loops.
-/

/-! ## Data model (detector.py: Change, ChangeType; chunk records) -/

inductive ChangeType where
  | added
  | removed
  | modified
  | moved
  deriving DecidableEq, Repr

structure Chunk where
  section_id : String
  chunk_id : String
  title : Option String
  content : String
  deriving DecidableEq, Repr, Inhabited

structure Change where
  section_id : String
  chunk_id : String
  change_type : ChangeType
  old_content : String
  new_content : String
  similarity_score : ℚ
  moved_to : Option String := none
  deriving DecidableEq, Repr

/-- The version map `Dict[str, Optional[str]]`, as an association list
(keys are old chunk ids; `dict.get` returns `None` both for an absent key
and for a key explicitly mapped to `None`). -/
def VersionMap : Type := List (String × Option String)

/-- `version_map.get(k)`: first binding of `k`, flattening an explicit
`None` value into absence, exactly as Python `dict.get` observes it. -/
def vm_get (vm : VersionMap) (k : String) : Option String :=
  match vm.find? (fun p => p.1 == k) with
  | some p => p.2
  | none => none

/-- `cid in version_map.values()` (Python `==` between a string and
`None` is `False`, so only `some` values can match). -/
def vm_has_value (vm : VersionMap) (cid : String) : Bool :=
  vm.any (fun p => p.2 == some cid)

/-- Python truthiness of `Optional[str]`: `None` and `""` are falsy. -/
def truthyOpt : Option String → Bool
  | none => false
  | some s => !(s == "")

/-! ## difflib.SequenceMatcher (Python stdlib, as invoked with isjunk=None,
autojunk=True).  Generic over the element type: the detector runs it both
on `List Char` (string similarity) and on `List String` (chunk-content
sequence alignment). -/

variable {α : Type} [DecidableEq α] [Inhabited α]

/-- autojunk: an element of `b` is "popular" when `len(b) >= 200` and it
occurs more than `len(b) // 100 + 1` times; popular elements are dropped
from the `b2j` occurrence map (`SequenceMatcher.__chain_b`). -/
def isPopular (b : List α) (x : α) : Bool :=
  decide (200 ≤ b.length) && decide (b.length / 100 + 1 < b.count x)

/-- `self.b2j[x]`: the ascending list of positions of `x` in `b`
(empty for popular elements). -/
def b2j (b : List α) (x : α) : List Nat :=
  if isPopular b x then []
  else (List.range b.length).filter (fun j => b.get? j == some x)

/-- `j2len.get(j, 0)` on the association-list representation of the
running length dictionary of `find_longest_match`. -/
def mGet (m : List (Nat × Nat)) (j : Nat) : Nat :=
  match m.find? (fun p => p.1 == j) with
  | some p => p.2
  | none => 0

/-- The inner loop of `find_longest_match`: for one fixed `i`, walk the
ascending occurrence list `js = b2j[a[i]]`, skipping `j < blo`
(`continue`), stopping at `j >= bhi` (`break`, the list is ascending),
extending chains from the previous row `m` and recording the best match
seen.  State is `(besti, bestj, bestsize)`; `acc` accumulates `newj2len`.
Python's `j2len.get(j-1, 0)` at `j = 0` looks up key `-1`, which is never
present, hence the explicit `j = 0` case. -/
def flmInner (m : List (Nat × Nat)) (blo bhi i : Nat) :
    List Nat → Nat × Nat × Nat → List (Nat × Nat) →
    (Nat × Nat × Nat) × List (Nat × Nat)
  | [], st, acc => (st, acc)
  | j :: js, st, acc =>
    if j < blo then flmInner m blo bhi i js st acc
    else if bhi ≤ j then (st, acc)
    else
      let k := (if j = 0 then 0 else mGet m (j - 1)) + 1
      let st' := if st.2.2 < k then (i + 1 - k, j + 1 - k, k) else st
      flmInner m blo bhi i js st' ((j, k) :: acc)

/-- The outer loop of `find_longest_match` over `i in range(alo, ahi)`,
threading the best-match state and the row dictionary. -/
def flmOuter (a b : List α) (blo bhi : Nat) :
    List Nat → Nat × Nat × Nat → List (Nat × Nat) → Nat × Nat × Nat
  | [], st, _ => st
  | i :: is, st, m =>
    let js := b2j b (a.getD i default)
    let r := flmInner m blo bhi i js st []
    flmOuter a b blo bhi is r.1 r.2

/-- First extension loop of `find_longest_match`: extend the best match
leftwards while the adjacent elements agree (`bjunk` is empty because
`isjunk=None`, so the junk test never fires and the second pair of
extension loops is a no-op).  The while-loop decrements `besti` on every
iteration, so seeding the structural counter with `besti` makes the
recursion total without changing the computed fixpoint. -/
def extLeft (a b : List α) (alo blo : Nat) :
    Nat → Nat × Nat × Nat → Nat × Nat × Nat
  | 0, st => st
  | fuel + 1, (bi, bj, bs) =>
    if alo < bi ∧ blo < bj ∧ a.getD (bi - 1) default = b.getD (bj - 1) default then
      extLeft a b alo blo fuel (bi - 1, bj - 1, bs + 1)
    else (bi, bj, bs)

/-- Second extension loop: extend rightwards while elements agree.  Each
iteration increments `bestsize` and requires `besti + bestsize < ahi`, so
a counter starting at `ahi` dominates the loop variant. -/
def extRight (a b : List α) (ahi bhi : Nat) :
    Nat → Nat × Nat × Nat → Nat × Nat × Nat
  | 0, st => st
  | fuel + 1, (bi, bj, bs) =>
    if bi + bs < ahi ∧ bj + bs < bhi ∧
        a.getD (bi + bs) default = b.getD (bj + bs) default then
      extRight a b ahi bhi fuel (bi, bj, bs + 1)
    else (bi, bj, bs)

/-- `SequenceMatcher.find_longest_match(alo, ahi, blo, bhi)`. -/
def find_longest_match (a b : List α) (alo ahi blo bhi : Nat) : Nat × Nat × Nat :=
  let st := flmOuter a b blo bhi (List.range' alo (ahi - alo)) (alo, blo, 0) []
  let stl := extLeft a b alo blo st.1 st
  extRight a b ahi bhi ahi stl

/-! ### Bounds of find_longest_match

The returned `(i, j, k)` always satisfies `alo ≤ i`, `i + k ≤ ahi`,
`blo ≤ j`, `j + k ≤ bhi`; this drives the termination and the
edit-script tiling of `get_matching_blocks`/`get_opcodes`. -/

def MatchBounds (alo ahi blo bhi : Nat) (st : Nat × Nat × Nat) : Prop :=
  alo ≤ st.1 ∧ st.1 + st.2.2 ≤ ahi ∧ blo ≤ st.2.1 ∧ st.2.1 + st.2.2 ≤ bhi

/-- Row-dictionary invariant: keys lie in `[blo, bhi)`, values are chain
lengths bounded by the key (`v ≤ j + 1 - blo`) and by the number of outer
iterations performed so far (`v ≤ cnt`). -/
def RowBounds (blo bhi cnt : Nat) (m : List (Nat × Nat)) : Prop :=
  ∀ p ∈ m, blo ≤ p.1 ∧ p.1 < bhi ∧ p.2 + blo ≤ p.1 + 1 ∧ p.2 ≤ cnt

/-- `SequenceMatcher.get_matching_blocks`, in its equivalent recursive
form: the Python queue + final sort produces the blocks of the left
sub-range, then the found block, then the blocks of the right sub-range
(the guards `alo < i and blo < j` / `i+k < ahi and j+k < bhi` are the
queue-push conditions of the source).  Every recursive call strictly
shrinks `(ahi - alo) + (bhi - blo)` (see `flm_bounds_of_pos`), so a
structural counter starting at that measure makes the recursion total
without changing the result. -/
def matchingBlocksAux (a b : List α) :
    Nat → Nat → Nat → Nat → Nat → List (Nat × Nat × Nat)
  | 0, _, _, _, _ => []
  | fuel + 1, alo, ahi, blo, bhi =>
    let r := find_longest_match a b alo ahi blo bhi
    if r.2.2 = 0 then []
    else
      (if alo < r.1 ∧ blo < r.2.1 then matchingBlocksAux a b fuel alo r.1 blo r.2.1
       else []) ++ [r] ++
      (if r.1 + r.2.2 < ahi ∧ r.2.1 + r.2.2 < bhi then
         matchingBlocksAux a b fuel (r.1 + r.2.2) ahi (r.2.1 + r.2.2) bhi
       else [])

/-- The adjacent-block merge pass of `get_matching_blocks`, seeded with
`(0, 0, 0)` as in the source. -/
def mergeBlocksAux : Nat × Nat × Nat → List (Nat × Nat × Nat) → List (Nat × Nat × Nat)
  | (i1, j1, k1), [] => if k1 ≠ 0 then [(i1, j1, k1)] else []
  | (i1, j1, k1), (i2, j2, k2) :: rest =>
    if i1 + k1 = i2 ∧ j1 + k1 = j2 then mergeBlocksAux (i1, j1, k1 + k2) rest
    else (if k1 ≠ 0 then [(i1, j1, k1)] else []) ++ mergeBlocksAux (i2, j2, k2) rest

/-- `SequenceMatcher.get_matching_blocks()`, ending with the sentinel
`(len(a), len(b), 0)`. -/
def get_matching_blocks (a b : List α) : List (Nat × Nat × Nat) :=
  mergeBlocksAux (0, 0, 0)
    (matchingBlocksAux a b (a.length + b.length) 0 a.length 0 b.length)
    ++ [(a.length, b.length, 0)]

inductive OpTag where
  | equal
  | delete
  | insert
  | replace
  deriving DecidableEq, Repr

/-- The loop body of `SequenceMatcher.get_opcodes()`: walk the matching
blocks with a cursor, emitting a replace/delete/insert opcode for the gap
before each block and an equal opcode for the block itself. -/
def opcodesFromBlocks : Nat → Nat → List (Nat × Nat × Nat) →
    List (OpTag × Nat × Nat × Nat × Nat)
  | _, _, [] => []
  | i, j, (ai, bjj, size) :: rest =>
    (if i < ai ∧ j < bjj then [(OpTag.replace, i, ai, j, bjj)]
     else if i < ai then [(OpTag.delete, i, ai, j, bjj)]
     else if j < bjj then [(OpTag.insert, i, ai, j, bjj)]
     else [])
    ++ (if size ≠ 0 then [(OpTag.equal, ai, ai + size, bjj, bjj + size)] else [])
    ++ opcodesFromBlocks (ai + size) (bjj + size) rest

/-- `SequenceMatcher.get_opcodes()`. -/
def get_opcodes (a b : List α) : List (OpTag × Nat × Nat × Nat × Nat) :=
  opcodesFromBlocks 0 0 (get_matching_blocks a b)

/-- `SequenceMatcher.ratio()`: `2*M/T` where `M` is the total size of the
matching blocks and `T` the total length (`1.0` when both are empty,
per `_calculate_ratio`). -/
def seqRatio (a b : List α) : ℚ :=
  let m := ((get_matching_blocks a b).map (fun x => x.2.2)).sum
  if a.length + b.length = 0 then 1
  else (2 * m : ℚ) / ((a.length : ℚ) + (b.length : ℚ))

/-! ## detector.py -/

/-- `compute_similarity(a, b)`: `SequenceMatcher(None, a, b).ratio()` on
the two strings as character sequences. -/
def compute_similarity (s t : String) : ℚ :=
  seqRatio s.data t.data

/-- The `delete` branch of `ChangeDetector.detect_changes`: one Change
per deleted old chunk; MOVED when `version_map.get(chunk_id)` is truthy
(a non-`None`, non-empty string), REMOVED otherwise. -/
def processDelete (sec : String) (olds : List Chunk) (vm : VersionMap)
    (i1 i2 : Nat) : List Change :=
  (List.range' i1 (i2 - i1)).map fun idx =>
    let c := olds.getD idx default
    let moved_to := vm_get vm c.chunk_id
    if truthyOpt moved_to then
      { section_id := sec, chunk_id := c.chunk_id, change_type := ChangeType.moved,
        old_content := c.content, new_content := "", similarity_score := 1,
        moved_to := moved_to }
    else
      { section_id := sec, chunk_id := c.chunk_id, change_type := ChangeType.removed,
        old_content := c.content, new_content := "", similarity_score := 0,
        moved_to := none }

/-- The `insert` branch: one ADDED Change per inserted new chunk, unless
its chunk_id occurs among `version_map.values()` (skip: already surfaced
as the target of a MOVED record). -/
def processInsert (sec : String) (news : List Chunk) (vm : VersionMap)
    (j1 j2 : Nat) : List Change :=
  (List.range' j1 (j2 - j1)).filterMap fun idx =>
    let c := news.getD idx default
    if vm_has_value vm c.chunk_id then none
    else some
      { section_id := sec, chunk_id := c.chunk_id, change_type := ChangeType.added,
        old_content := "", new_content := c.content, similarity_score := 1,
        moved_to := none }

/-- The `replace` branch: pair the two runs positionally for
`min(len(old_run), len(new_run))` pairs, emitting a MODIFIED Change with
composite chunk_id and the content-similarity score. -/
def processReplace (sec : String) (olds news : List Chunk)
    (i1 i2 j1 j2 : Nat) : List Change :=
  (List.range (min (i2 - i1) (j2 - j1))).map fun k =>
    let old_c := olds.getD (i1 + k) default
    let new_c := news.getD (j1 + k) default
    { section_id := sec,
      chunk_id := old_c.chunk_id ++ "→" ++ new_c.chunk_id,
      change_type := ChangeType.modified,
      old_content := old_c.content, new_content := new_c.content,
      similarity_score := compute_similarity old_c.content new_c.content,
      moved_to := none }

/-- Dispatch on one opcode of the per-section edit script. -/
def processOpcode (sec : String) (olds news : List Chunk) (vm : VersionMap) :
    OpTag × Nat × Nat × Nat × Nat → List Change
  | (OpTag.equal, _, _, _, _) => []
  | (OpTag.delete, i1, i2, _, _) => processDelete sec olds vm i1 i2
  | (OpTag.insert, _, _, j1, j2) => processInsert sec news vm j1 j2
  | (OpTag.replace, i1, i2, j1, j2) => processReplace sec olds news i1 i2 j1 j2

/-- The union of section ids, in Python's `sorted(set(...))` order
(lexicographic by code point, matching `String` order). -/
def sortedSecs (old_chunks new_chunks : List Chunk) : List String :=
  (((old_chunks ++ new_chunks).map (fun c => c.section_id)).dedup).mergeSort
    (fun s t => decide (s ≤ t))

/-- `ChangeDetector.detect_changes(old_chunks, new_chunks)` with the
detector's `version_map`: group both sides by section (grouping by
iteration order is the same as filtering), iterate the sorted union of
section ids, align each section's content sequences with
`SequenceMatcher.get_opcodes` and emit per-run Changes. -/
def detect_changes (old_chunks new_chunks : List Chunk) (vm : VersionMap) :
    List Change :=
  (sortedSecs old_chunks new_chunks).flatMap fun sec =>
    let olds := old_chunks.filter (fun c => c.section_id == sec)
    let news := new_chunks.filter (fun c => c.section_id == sec)
    let ops := get_opcodes (olds.map (fun c => c.content)) (news.map (fun c => c.content))
    ops.flatMap (processOpcode sec olds news vm)

/-! ## version_mapping.py -/

/-- `o.get("title") or ""`. -/
def title_or_empty (c : Chunk) : String :=
  c.title.getD ""

/-- The weighted score of `map_chunks`: `title_weight * titleSim +
content_weight * contentSim`, where titleSim is `0.0` unless both titles
are truthy (non-empty). -/
def pair_score (title_weight content_weight : ℚ) (o n : Chunk) : ℚ :=
  let o_title := title_or_empty o
  let n_title := title_or_empty n
  let title_score : ℚ :=
    if o_title ≠ "" ∧ n_title ≠ "" then seqRatio o_title.data n_title.data else 0
  let content_score := seqRatio o.content.data n.content.data
  title_weight * title_score + content_weight * content_score

/-- The inner `for n in news` loop of `map_chunks`: fold starting from
`best_score = 0.0, best_chunk = None`, updating on a strict improvement
(`score > best_score`), so ties keep the first maximiser. -/
def bestMatch (title_weight content_weight : ℚ) (o : Chunk) (news : List Chunk) :
    ℚ × Option String :=
  news.foldl
    (fun best n =>
      let score := pair_score title_weight content_weight o n
      if best.1 < score then (score, some n.chunk_id) else best)
    (0, none)

/-- `map_chunks(old_chunks, new_chunks, title_weight, content_weight,
threshold)`: compare only same-section chunks; map to the best chunk when
`best_score >= threshold`, else to `None`.  Sections iterate in
first-appearance order (`dict.items()` insertion order); the resulting
Python dict is modelled as the association list of assignments (they
coincide whenever old chunk ids are distinct). -/
def map_chunks (old_chunks new_chunks : List Chunk)
    (title_weight content_weight threshold : ℚ) : VersionMap :=
  ((old_chunks.map (fun c => c.section_id)).dedup).flatMap fun sec =>
    let olds := old_chunks.filter (fun c => c.section_id == sec)
    let news := new_chunks.filter (fun c => c.section_id == sec)
    olds.map fun o =>
      let best := bestMatch title_weight content_weight o news
      (o.chunk_id, if threshold ≤ best.1 then best.2 else none)

/-! ## detector.py over raw dict records

`detect_changes` subscripts its input dicts (`c["section_id"]`,
`c["content"]`, `c["chunk_id"]`); a missing key raises `KeyError(key)`.
This variant models the chunks as records with optional fields and the
computation in the `Except` monad whose error is the missing key name. -/

structure RawChunk where
  section_id : Option String
  chunk_id : Option String
  title : Option String
  content : Option String
  deriving DecidableEq, Repr, Inhabited

/-- `c[field]`: the value, or `KeyError(field)`. -/
def keyGet (field : String) : Option String → Except String String
  | some v => Except.ok v
  | none => Except.error field

/-- The per-opcode emission over raw records, with the same dict-access
order as the source. -/
def processOpcodeRaw (sec : String) (olds news : List RawChunk) (vm : VersionMap) :
    OpTag × Nat × Nat × Nat × Nat → Except String (List Change)
  | (OpTag.equal, _, _, _, _) => Except.ok []
  | (OpTag.delete, i1, i2, _, _) =>
    (List.range' i1 (i2 - i1)).mapM fun idx => do
      let c := olds.getD idx default
      let cid ← keyGet "chunk_id" c.chunk_id
      let content ← keyGet "content" c.content
      let moved_to := vm_get vm cid
      if truthyOpt moved_to then
        pure { section_id := sec, chunk_id := cid, change_type := ChangeType.moved,
               old_content := content, new_content := "", similarity_score := 1,
               moved_to := moved_to }
      else
        pure { section_id := sec, chunk_id := cid, change_type := ChangeType.removed,
               old_content := content, new_content := "", similarity_score := 0,
               moved_to := none }
  | (OpTag.insert, _, _, j1, j2) => do
    let parts ← (List.range' j1 (j2 - j1)).mapM fun idx => do
      let c := news.getD idx default
      let cid ← keyGet "chunk_id" c.chunk_id
      if vm_has_value vm cid then
        pure []
      else do
        let content ← keyGet "content" c.content
        pure [{ section_id := sec, chunk_id := cid, change_type := ChangeType.added,
                old_content := "", new_content := content, similarity_score := 1,
                moved_to := none : Change }]
    pure parts.flatten
  | (OpTag.replace, i1, i2, j1, j2) =>
    (List.range (min (i2 - i1) (j2 - j1))).mapM fun k => do
      let old_c := olds.getD (i1 + k) default
      let new_c := news.getD (j1 + k) default
      let oc ← keyGet "content" old_c.content
      let nc ← keyGet "content" new_c.content
      let ocid ← keyGet "chunk_id" old_c.chunk_id
      let ncid ← keyGet "chunk_id" new_c.chunk_id
      pure { section_id := sec, chunk_id := ocid ++ "→" ++ ncid,
             change_type := ChangeType.modified,
             old_content := oc, new_content := nc,
             similarity_score := compute_similarity oc nc, moved_to := none }

/-- The grouping loop body: `old_by_sec[c["section_id"]].append(c)`
subscripts `section_id`. -/
def tagSection (c : RawChunk) : Except String (String × RawChunk) := do
  let s ← keyGet "section_id" c.section_id
  pure (s, c)

/-- `c["content"]` in the per-section list comprehensions. -/
def rawContent (c : RawChunk) : Except String String :=
  keyGet "content" c.content

/-- The per-section body of `detect_changes` over raw records: read every
chunk's content, align, emit per-run Changes. -/
def processSectionRaw (vm : VersionMap)
    (oldTagged newTagged : List (String × RawChunk)) (sec : String) :
    Except String (List Change) := do
  let olds := (oldTagged.filter (fun p => p.1 == sec)).map Prod.snd
  let news := (newTagged.filter (fun p => p.1 == sec)).map Prod.snd
  let old_list ← olds.mapM rawContent
  let new_list ← news.mapM rawContent
  let ops := get_opcodes old_list new_list
  let runs ← ops.mapM (processOpcodeRaw sec olds news vm)
  pure runs.flatten

/-- `detect_changes` over raw dict records: the grouping loops subscript
`c["section_id"]` for every old then every new chunk, then each section
(in sorted order) reads the content of all its chunks before aligning. -/
def detect_changes_raw (old_chunks new_chunks : List RawChunk) (vm : VersionMap) :
    Except String (List Change) := do
  let oldTagged ← old_chunks.mapM tagSection
  let newTagged ← new_chunks.mapM tagSection
  let secs := ((oldTagged.map Prod.fst ++ newTagged.map Prod.fst).dedup).mergeSort
    (fun s t => decide (s ≤ t))
  let parts ← secs.mapM (processSectionRaw vm oldTagged newTagged)
  pure parts.flatten

/-! ## vector_db.py -/

structure ChunkMeta where
  section_id : String
  chunk_id : String
  change_type : String
  similarity : ℚ
  text : String
  deriving DecidableEq, Repr, Inhabited

structure EventMeta where
  event_id : Int
  label : String
  members : List Nat
  deriving DecidableEq, Repr, Inhabited

/-- The in-memory state of `VectorDB`: a FAISS `IndexFlatL2` is a list of
stored vectors; the encoder (SentenceTransformer) is an arbitrary
text-to-vector function. -/
structure VectorDB where
  dim : Nat
  encoder : String → List ℚ
  chunk_index : List (List ℚ)
  chunk_metadatas : List ChunkMeta
  event_index : List (List ℚ)
  event_metadatas : List EventMeta

/-- One element of the list `query_changes` returns:
`{text, score, metadata}` with `"text"` popped from the metadata copy. -/
structure ChangeHit where
  text : String
  score : ℚ
  section_id : String
  chunk_id : String
  change_type : String
  similarity : ℚ
  deriving DecidableEq, Repr

/-- One element of the list `query_events` returns. -/
structure EventHit where
  label : String
  score : ℚ
  event_id : Int
  members : List Nat
  deriving DecidableEq, Repr

def sqDist (q v : List ℚ) : ℚ :=
  ((q.zip v).map (fun p => (p.1 - p.2) ^ 2)).sum

/-- Modelled from the spec: the external `nearest_neighbors` capability
(`faiss.IndexFlatL2.search`), whose implementation is not part of this
repository.  Per its contract it returns exactly `k` `(distance, id)`
pairs ranked by increasing L2 distance, padded with placeholder id `-1`
when the index stores fewer than `k` vectors. -/
def faiss_search (index : List (List ℚ)) (q : List ℚ) (k : Nat) : List (ℚ × Int) :=
  let scored := index.enum.map fun p => (sqDist q p.2, (p.1 : Int))
  let sorted := scored.mergeSort (fun x y => decide (x.1 ≤ y.1))
  sorted.take k ++ List.replicate (k - index.length) (0, -1)

/-- `VectorDB.__init__` loading logic for one index/metadata pair: the
pair is loaded only when **both** files exist, otherwise a fresh empty
index and empty metadata list are silently created. -/
def load_pair {β : Type} (index_file : Option (List (List ℚ))) (meta_file : Option (List β)) :
    List (List ℚ) × List β :=
  match index_file, meta_file with
  | some ix, some md => (ix, md)
  | _, _ => ([], [])

/-- `VectorDB.__init__` (persisted state only; the encoder and dimension
are the constructor arguments). -/
def load_vector_db (dim : Nat) (encoder : String → List ℚ)
    (chunk_index_file : Option (List (List ℚ))) (chunk_meta_file : Option (List ChunkMeta))
    (event_index_file : Option (List (List ℚ))) (event_meta_file : Option (List EventMeta)) :
    VectorDB :=
  let cp := load_pair chunk_index_file chunk_meta_file
  let ep := load_pair event_index_file event_meta_file
  { dim := dim, encoder := encoder,
    chunk_index := cp.1, chunk_metadatas := cp.2,
    event_index := ep.1, event_metadatas := ep.2 }

/-- `VectorDB.query_changes(query, top_k)`: search, then keep hits whose
id is in range of the metadata list (`if idx < 0 or idx >= len(...):
continue`). -/
def query_changes (db : VectorDB) (query : String) (top_k : Nat) : List ChangeHit :=
  let q := db.encoder query
  (faiss_search db.chunk_index q top_k).filterMap fun hit =>
    if h : 0 ≤ hit.2 ∧ hit.2.toNat < db.chunk_metadatas.length then
      let md := db.chunk_metadatas.get ⟨hit.2.toNat, h.2⟩
      some { text := md.text, score := hit.1, section_id := md.section_id,
             chunk_id := md.chunk_id, change_type := md.change_type,
             similarity := md.similarity }
    else none

/-- `VectorDB.query_events(query, top_k)`. -/
def query_events (db : VectorDB) (query : String) (top_k : Nat) : List EventHit :=
  let q := db.encoder query
  (faiss_search db.event_index q top_k).filterMap fun hit =>
    if h : 0 ≤ hit.2 ∧ hit.2.toNat < db.event_metadatas.length then
      let md := db.event_metadatas.get ⟨hit.2.toNat, h.2⟩
      some { label := md.label, score := hit.1, event_id := md.event_id,
             members := md.members }
    else none

/-! ## scripts/cluster_events.py -/

structure EventOut where
  event_id : Nat
  label : String
  members : List Nat
  deriving DecidableEq, Repr

/-- `num_clusters = int(labels.max()) + 1`.  `labels.foldl max (-1)`
agrees with `labels.max()` for every non-empty HDBSCAN labelling (labels
are ≥ -1); numpy raises on an empty array, where this returns 0 and no
event is produced either way. -/
def num_clusters (labels : List Int) : Nat :=
  ((labels.foldl max (-1)) + 1).toNat

/-- `members = [i for i, lbl in enumerate(labels) if lbl == cid]`. -/
def cluster_members (labels : List Int) (cid : Nat) : List Nat :=
  (labels.enum.filter (fun p => p.2 == (cid : Int))).map Prod.fst

/-- The event-construction loop of `cluster_events.py`: for each cluster
id in `range(num_clusters)`, collect members, skip empty clusters, and
label via the summarization capability (`call_llm` + strip), modelled as
the oracle `titleOf`. -/
def build_events (labels : List Int) (titleOf : Nat → String) : List EventOut :=
  (List.range (num_clusters labels)).filterMap fun cid =>
    let members := cluster_members labels cid
    if members.isEmpty then none
    else some { event_id := cid, label := titleOf cid, members := members }

/-! ## Coverage predicates (claim C1) and version-map lookup -/

/-- The binding of `k` in the version-map dict, distinguishing "maps to
null" (`some none`) from "absent" (`none`), unlike `vm_get`. -/
def vm_lookup (vm : VersionMap) (k : String) : Option (Option String) :=
  (vm.find? (fun p => p.1 == k)).map (fun p => p.2)

/-- A Change record covering an old chunk id on its old side:
REMOVED/MOVED records carry the old chunk id itself, MODIFIED records a
composite `old→new` beginning with it. -/
def coversOldSide (r : Change) (cid : String) : Bool :=
  ((r.change_type == ChangeType.removed || r.change_type == ChangeType.moved) &&
    r.chunk_id == cid) ||
  (r.change_type == ChangeType.modified &&
    (cid.data ++ ['→']).isPrefixOf r.chunk_id.data)

/-- A Change record covering a new chunk id on its new side: ADDED
records carry the new chunk id, MODIFIED records a composite `old→new`
ending with it. -/
def coversNewSide (r : Change) (cid : String) : Bool :=
  (r.change_type == ChangeType.added && r.chunk_id == cid) ||
  (r.change_type == ChangeType.modified &&
    ('→' :: cid.data).isSuffixOf r.chunk_id.data)

/-- The claim's notion of a chunk "appearing" in a Change record, read
as generously as possible: on either side by id (including inside a
MODIFIED composite id), as a MOVED target, or by content match. -/
def appearsIn (r : Change) (cid content : String) : Bool :=
  coversOldSide r cid || coversNewSide r cid || r.moved_to == some cid ||
  r.chunk_id == cid || r.old_content == content || r.new_content == content

/-! ## Edit-script tiling predicates

`get_opcodes` tiles `[0, len a) × [0, len b)` into consecutive runs;
these predicates state the chaining. -/

/-- The matching blocks chain upward from cursor `(i, j)` with all block
ends bounded by `(ei, ej)`. -/
def BlocksWithin : Nat → Nat → Nat → Nat → List (Nat × Nat × Nat) → Prop
  | _, _, _, _, [] => True
  | i, j, ei, ej, (ai, bj, k) :: rest =>
    i ≤ ai ∧ j ≤ bj ∧ ai + k ≤ ei ∧ bj + k ≤ ej ∧
    BlocksWithin (ai + k) (bj + k) ei ej rest

/-- As `BlocksWithin`, but the chain ends exactly at `(ei, ej)` (the
sentinel block guarantees this for `get_matching_blocks`). -/
def BlocksTile : Nat → Nat → Nat → Nat → List (Nat × Nat × Nat) → Prop
  | i, j, ei, ej, [] => i = ei ∧ j = ej
  | i, j, ei, ej, (ai, bj, k) :: rest =>
    i ≤ ai ∧ j ≤ bj ∧ BlocksTile (ai + k) (bj + k) ei ej rest

/-- The opcode list tiles `[i, ei) × [j, ej)`: each opcode starts at the
cursor left by its predecessor and the last ends exactly at `(ei, ej)`. -/
def OpsTile : Nat → Nat → Nat → Nat → List (OpTag × Nat × Nat × Nat × Nat) → Prop
  | i, j, ei, ej, [] => i = ei ∧ j = ej
  | i, j, ei, ej, (_, i1, i2, j1, j2) :: rest =>
    i1 = i ∧ j1 = j ∧ i1 ≤ i2 ∧ j1 ≤ j2 ∧ OpsTile i2 j2 ei ej rest

/-- The field of a raw chunk record named by a dict key. -/
def rawField (c : RawChunk) (k : String) : Option String :=
  if k = "section_id" then c.section_id
  else if k = "chunk_id" then c.chunk_id
  else if k = "content" then c.content
  else none

/-- Ghost quantity for the idempotence proof: the length of the diagonal
match chain of `find_longest_match` run on a sequence against itself,
i.e. the number of consecutive non-popular positions ending at `i`. -/
def diagChain (a : List α) : Nat → Nat
  | 0 => if 0 ∈ b2j a (a.getD 0 default) then 1 else 0
  | i + 1 => if (i + 1) ∈ b2j a (a.getD (i + 1) default) then diagChain a i + 1 else 0

/-! # Theorems

First the loop invariants of `find_longest_match`, then the claim
theorems. -/

theorem mGet_le (m : List (Nat × Nat)) (x c : Nat)
    (h : ∀ p ∈ m, p.1 = x → p.2 ≤ c) : mGet m x ≤ c := by
  unfold mGet
  cases hfind : m.find? (fun p => p.1 == x) with
  | none => exact Nat.zero_le c
  | some p =>
    have hp : p ∈ m := List.mem_of_find?_eq_some hfind
    have hx : p.1 = x := by
      have := List.find?_some hfind
      simpa using this
    exact h p hp hx

theorem flmInner_inv (alo ahi blo bhi i : Nat) (hi1 : alo ≤ i) (hi2 : i < ahi)
    (m : List (Nat × Nat)) (hm : RowBounds blo bhi (i - alo) m) :
    ∀ (js : List Nat) (st : Nat × Nat × Nat) (acc : List (Nat × Nat)),
      MatchBounds alo ahi blo bhi st →
      RowBounds blo bhi (i + 1 - alo) acc →
      MatchBounds alo ahi blo bhi (flmInner m blo bhi i js st acc).1 ∧
      RowBounds blo bhi (i + 1 - alo) (flmInner m blo bhi i js st acc).2 := by
  intro js
  induction js with
  | nil =>
    intro st acc hst hacc
    simpa [flmInner] using ⟨hst, hacc⟩
  | cons j js ih =>
    intro st acc hst hacc
    by_cases hjlo : j < blo
    · simpa [flmInner, hjlo] using ih st acc hst hacc
    · by_cases hjhi : bhi ≤ j
      · simpa [flmInner, hjlo, hjhi] using ⟨hst, hacc⟩
      · have hblo : blo ≤ j := Nat.le_of_not_lt hjlo
        have hbhi : j < bhi := Nat.lt_of_not_le hjhi
        have hk1 : (if j = 0 then 0 else mGet m (j - 1)) + blo ≤ j := by
          by_cases hj0 : j = 0
          · simp [hj0] at hblo ⊢
            omega
          · simp only [if_neg hj0]
            have := mGet_le m (j - 1) (j - blo)
              (fun p hp hpx => by
                have := hm p hp
                omega)
            omega
        have hk2 : (if j = 0 then 0 else mGet m (j - 1)) ≤ i - alo := by
          by_cases hj0 : j = 0
          · simp [hj0]
          · simp only [if_neg hj0]
            exact mGet_le m (j - 1) (i - alo) (fun p hp _ => (hm p hp).2.2.2)
        set k := (if j = 0 then 0 else mGet m (j - 1)) + 1 with hkdef
        have hrec : flmInner m blo bhi i (j :: js) st acc =
            flmInner m blo bhi i js
              (if st.2.2 < k then (i + 1 - k, j + 1 - k, k) else st)
              ((j, k) :: acc) := by
          conv_lhs => rw [flmInner]
          simp [hjlo, hjhi, hkdef]
        rw [hrec]
        apply ih
        · by_cases hlt : st.2.2 < k
          · simp only [if_pos hlt]
            refine ⟨?_, ?_, ?_, ?_⟩ <;> simp only <;> omega
          · simpa [if_neg hlt] using hst
        · intro p hp
          rcases List.mem_cons.1 hp with hp1 | hp2
          · subst hp1
            refine ⟨hblo, hbhi, ?_, ?_⟩ <;> simp only <;> omega
          · exact hacc p hp2

theorem flmOuter_inv (a b : List α) (alo ahi blo bhi : Nat) :
    ∀ (n i : Nat) (st : Nat × Nat × Nat) (m : List (Nat × Nat)),
      alo ≤ i → i + n ≤ ahi →
      MatchBounds alo ahi blo bhi st →
      RowBounds blo bhi (i - alo) m →
      MatchBounds alo ahi blo bhi
        (flmOuter a b blo bhi (List.range' i n) st m) := by
  intro n
  induction n with
  | zero =>
    intro i st m _ _ hst _
    simpa [flmOuter] using hst
  | succ n ih =>
    intro i st m hi1 hi2 hst hm
    rw [List.range'_succ]
    have hstep := flmInner_inv alo ahi blo bhi i hi1 (by omega) m hm
      (b2j b (a.getD i default)) st [] hst (by intro p hp; simp at hp)
    rw [flmOuter]
    have : i + 1 - alo = i + 1 - alo := rfl
    refine ih (i + 1) _ _ (by omega) (by omega) hstep.1 ?_
    have h2 := hstep.2
    intro p hp
    have := h2 p hp
    omega

theorem extLeft_inv (a b : List α) (alo ahi blo bhi : Nat) :
    ∀ (fuel : Nat) (st : Nat × Nat × Nat), MatchBounds alo ahi blo bhi st →
      MatchBounds alo ahi blo bhi (extLeft a b alo blo fuel st) := by
  intro fuel
  induction fuel with
  | zero => intro st hst; simpa [extLeft] using hst
  | succ fuel ih =>
    intro st hst
    obtain ⟨bi, bj, bs⟩ := st
    rw [extLeft]
    by_cases h : alo < bi ∧ blo < bj ∧ a.getD (bi - 1) default = b.getD (bj - 1) default
    · rw [if_pos h]
      apply ih
      obtain ⟨h1, h2, h3, h4⟩ := hst
      refine ⟨?_, ?_, ?_, ?_⟩ <;> simp only at * <;> omega
    · rw [if_neg h]
      exact hst

theorem extRight_inv (a b : List α) (alo ahi blo bhi : Nat) :
    ∀ (fuel : Nat) (st : Nat × Nat × Nat), MatchBounds alo ahi blo bhi st →
      MatchBounds alo ahi blo bhi (extRight a b ahi bhi fuel st) := by
  intro fuel
  induction fuel with
  | zero => intro st hst; simpa [extRight] using hst
  | succ fuel ih =>
    intro st hst
    obtain ⟨bi, bj, bs⟩ := st
    rw [extRight]
    by_cases h : bi + bs < ahi ∧ bj + bs < bhi ∧
        a.getD (bi + bs) default = b.getD (bj + bs) default
    · rw [if_pos h]
      apply ih
      obtain ⟨h1, h2, h3, h4⟩ := hst
      refine ⟨?_, ?_, ?_, ?_⟩ <;> simp only at * <;> omega
    · rw [if_neg h]
      exact hst

theorem flm_bounds (a b : List α) (alo ahi blo bhi : Nat)
    (h1 : alo ≤ ahi) (h2 : blo ≤ bhi) :
    MatchBounds alo ahi blo bhi (find_longest_match a b alo ahi blo bhi) := by
  unfold find_longest_match
  apply extRight_inv a b alo
  apply extLeft_inv a b alo ahi blo bhi
  apply flmOuter_inv a b alo ahi blo bhi (ahi - alo) alo (alo, blo, 0) []
    (Nat.le_refl alo) (by omega)
    ⟨Nat.le_refl alo, by simpa using h1, Nat.le_refl blo, by simpa using h2⟩
    (by intro p hp; simp at hp)

/-- On an empty or inverted range the match loop never fires and the
result is the initial `(alo, blo, 0)`. -/
theorem flmInner_stuck (m : List (Nat × Nat)) (blo bhi i : Nat) (hd : bhi ≤ blo) :
    ∀ (js : List Nat) (st : Nat × Nat × Nat) (acc : List (Nat × Nat)),
      (flmInner m blo bhi i js st acc).1 = st := by
  intro js
  induction js with
  | nil => intro st acc; simp [flmInner]
  | cons j js ih =>
    intro st acc
    by_cases hjlo : j < blo
    · simpa [flmInner, hjlo] using ih st acc
    · have : bhi ≤ j := le_trans hd (Nat.le_of_not_lt hjlo)
      simp [flmInner, hjlo, this]

theorem flm_degenerate (a b : List α) (alo ahi blo bhi : Nat)
    (h : ahi < alo ∨ bhi < blo) :
    find_longest_match a b alo ahi blo bhi = (alo, blo, 0) := by
  have houter : flmOuter a b blo bhi (List.range' alo (ahi - alo)) (alo, blo, 0) []
      = (alo, blo, 0) := by
    rcases h with h1 | h2
    · have : ahi - alo = 0 := by omega
      simp [this, flmOuter]
    · have hd : bhi ≤ blo := Nat.le_of_lt h2
      generalize (ahi - alo) = n
      have : ∀ (n : Nat) (i : Nat) (st : Nat × Nat × Nat) (m : List (Nat × Nat)),
          flmOuter a b blo bhi (List.range' i n) st m = st := by
        intro n
        induction n with
        | zero => intro i st m; simp [flmOuter]
        | succ n ih =>
          intro i st m
          rw [List.range'_succ, flmOuter]
          rw [flmInner_stuck _ _ _ _ hd]
          exact ih (i + 1) _ _
      exact this n alo _ _
  unfold find_longest_match
  simp only
  rw [houter]
  have hl : ∀ fuel, extLeft a b alo blo fuel (alo, blo, 0) = (alo, blo, 0) := by
    intro fuel
    cases fuel with
    | zero => rfl
    | succ fuel =>
      rw [extLeft]
      have hc : ¬ (alo < alo ∧ blo < blo ∧
          a.getD (alo - 1) default = b.getD (blo - 1) default) := by
        intro hc
        omega
      rw [if_neg hc]
  rw [hl]
  have hc : ¬ (alo + 0 < ahi ∧ blo + 0 < bhi ∧
      a.getD (alo + 0) default = b.getD (blo + 0) default) := by
    intro hc
    omega
  cases ahi with
  | zero => rfl
  | succ n =>
    rw [extRight, if_neg hc]

theorem flm_bounds_of_pos (a b : List α) (alo ahi blo bhi : Nat)
    (hk : (find_longest_match a b alo ahi blo bhi).2.2 ≠ 0) :
    MatchBounds alo ahi blo bhi (find_longest_match a b alo ahi blo bhi) := by
  by_cases h1 : alo ≤ ahi
  · by_cases h2 : blo ≤ bhi
    · exact flm_bounds a b alo ahi blo bhi h1 h2
    · rw [flm_degenerate a b alo ahi blo bhi (Or.inr (Nat.lt_of_not_le h2))] at hk
      simp at hk
  · rw [flm_degenerate a b alo ahi blo bhi (Or.inl (Nat.lt_of_not_le h1))] at hk
    simp at hk


/-! ## Claim C9: clustering noise exclusion -/

theorem foldl_max_init_le {β : Type} [LinearOrder β] (l : List β) :
    ∀ i : β, i ≤ l.foldl max i := by
  induction l with
  | nil => intro i; simp
  | cons x l ih =>
    intro i
    rw [List.foldl_cons]
    exact le_trans (le_max_left i x) (ih (max i x))

/-- C9.  Every Event produced by the clustering loop of
`cluster_events.py` has a non-negative event id bounded by the maximum
label, and each of its members carries exactly that label — so a Change
labelled `-1` (noise) never appears in any Event's members, and no Event
with id `-1` exists. -/
theorem c9_clustering_noise_exclusion
    (labels : List Int) (titleOf : Nat → String) (ev : EventOut)
    (hev : ev ∈ build_events labels titleOf) :
    ((ev.event_id : Int) ≠ -1 ∧ (ev.event_id : Int) ≤ labels.foldl max (-1)) ∧
    ∀ m ∈ ev.members, labels.get? m = some ((ev.event_id : Int)) := by
  unfold build_events at hev
  rcases List.mem_filterMap.1 hev with ⟨cid, hcid, hf⟩
  have hcr : cid < num_clusters labels := List.mem_range.1 hcid
  by_cases hm : (cluster_members labels cid).isEmpty
  · simp [hm] at hf
  · simp only [hm, Bool.false_eq_true, if_false, Option.some.injEq] at hf
    subst hf
    have hmax : (-1 : Int) ≤ labels.foldl max (-1) := foldl_max_init_le labels (-1)
    refine ⟨⟨?_, ?_⟩, ?_⟩
    · show (cid : Int) ≠ -1
      omega
    · show (cid : Int) ≤ labels.foldl max (-1)
      unfold num_clusters at hcr
      omega
    · intro m hmm
      show labels.get? m = some ((cid : Int))
      unfold cluster_members at hmm
      rcases List.mem_map.1 hmm with ⟨p, hp, hpm⟩
      rcases List.mem_filter.1 hp with ⟨hpe, hpl⟩
      clear hmm
      have hlab : p.2 = (cid : Int) := by simpa using hpl
      have : labels[p.1]? = some p.2 := by
        have := List.mk_mem_enum_iff_getElem?.1 (by simpa using hpe)
        simpa using this
      rw [← hpm, List.get?_eq_getElem?, this, hlab]

/-- Witness for C9 at a concrete labelling `[-1, 0, 0]`. -/
theorem c9_clustering_noise_exclusion_witness :
    ([-1, 0, 0] : List Int).get? 1 =
      some (((⟨0, "t", [1, 2]⟩ : EventOut).event_id : Int)) :=
  (c9_clustering_noise_exclusion [-1, 0, 0] (fun _ => "t") ⟨0, "t", [1, 2]⟩
    (by with_unfolding_all decide)).2 1 (by decide)

/-! ## Claim C10: query safety of the retrieval layer -/

theorem length_faiss_search (index : List (List ℚ)) (q : List ℚ) (k : Nat) :
    (faiss_search index q k).length = k := by
  unfold faiss_search
  simp only [List.length_append, List.length_take, List.length_mergeSort,
    List.length_map, List.enum_length, List.length_replicate]
  omega

theorem filterMap_replicate_none {β γ : Type} (f : β → Option γ) (x : β)
    (hx : f x = none) : ∀ n, (List.replicate n x).filterMap f = [] := by
  intro n
  induction n with
  | zero => rfl
  | succ n ih => simp [List.replicate_succ, List.filterMap_cons, hx, ih]

theorem faiss_search_empty (q : List ℚ) (k : Nat) :
    faiss_search [] q k = List.replicate k (0, -1) := by
  unfold faiss_search
  simp

/-- C10 (implicit).  `query_changes`/`query_events` return at most
`top_k` hits, every hit is drawn from the stored metadata (FAISS
placeholder ids `-1` and ids beyond the metadata list are skipped, never
dereferenced), and querying a freshly created, never-populated store
returns the empty list without failing. -/
theorem c10_query_safety :
    (∀ (db : VectorDB) (q : String) (k : Nat),
      ((query_changes db q k).length ≤ k ∧ (query_events db q k).length ≤ k) ∧
      (∀ r ∈ query_changes db q k, ∃ md ∈ db.chunk_metadatas,
        r.text = md.text ∧ r.section_id = md.section_id ∧
        r.chunk_id = md.chunk_id ∧ r.change_type = md.change_type ∧
        r.similarity = md.similarity) ∧
      (∀ r ∈ query_events db q k, ∃ md ∈ db.event_metadatas,
        r.label = md.label ∧ r.event_id = md.event_id ∧ r.members = md.members)) ∧
    (∀ (dim : Nat) (enc : String → List ℚ) (q : String) (k : Nat),
      query_changes (load_vector_db dim enc none none none none) q k = [] ∧
      query_events (load_vector_db dim enc none none none none) q k = []) := by
  constructor
  · intro db q k
    refine ⟨⟨?_, ?_⟩, ?_, ?_⟩
    · calc (query_changes db q k).length
          ≤ (faiss_search db.chunk_index (db.encoder q) k).length :=
            List.length_filterMap_le _ _
        _ = k := length_faiss_search _ _ _
    · calc (query_events db q k).length
          ≤ (faiss_search db.event_index (db.encoder q) k).length :=
            List.length_filterMap_le _ _
        _ = k := length_faiss_search _ _ _
    · intro r hr
      unfold query_changes at hr
      rcases List.mem_filterMap.1 hr with ⟨hit, _, hf⟩
      by_cases h : 0 ≤ hit.2 ∧ hit.2.toNat < db.chunk_metadatas.length
      · rw [dif_pos h] at hf
        rcases Option.some.injEq _ _ ▸ hf with rfl
        exact ⟨db.chunk_metadatas.get ⟨hit.2.toNat, h.2⟩, List.get_mem _ _ _,
          rfl, rfl, rfl, rfl, rfl⟩
      · rw [dif_neg h] at hf
        cases hf
    · intro r hr
      unfold query_events at hr
      rcases List.mem_filterMap.1 hr with ⟨hit, _, hf⟩
      by_cases h : 0 ≤ hit.2 ∧ hit.2.toNat < db.event_metadatas.length
      · rw [dif_pos h] at hf
        rcases Option.some.injEq _ _ ▸ hf with rfl
        exact ⟨db.event_metadatas.get ⟨hit.2.toNat, h.2⟩, List.get_mem _ _ _,
          rfl, rfl, rfl⟩
      · rw [dif_neg h] at hf
        cases hf
  · intro dim enc q k
    constructor
    · unfold query_changes load_vector_db load_pair
      simp only
      rw [faiss_search_empty]
      exact filterMap_replicate_none _ _ (by norm_num) k
    · unfold query_events load_vector_db load_pair
      simp only
      rw [faiss_search_empty]
      exact filterMap_replicate_none _ _ (by norm_num) k

/-- Witness for C10 at a concrete store. -/
theorem c10_query_safety_witness :
    ((query_changes
        (VectorDB.mk 1 (fun _ => [0]) [[0]] [⟨"s", "c", "added", 1, "t"⟩] [] [])
        "q" 3).length ≤ 3) ∧
    (∃ md ∈ (VectorDB.mk 1 (fun _ => [0]) [[0]] [⟨"s", "c", "added", 1, "t"⟩] [] []).chunk_metadatas,
      (ChangeHit.mk "t" 0 "s" "c" "added" 1).text = md.text ∧
      (ChangeHit.mk "t" 0 "s" "c" "added" 1).section_id = md.section_id ∧
      (ChangeHit.mk "t" 0 "s" "c" "added" 1).chunk_id = md.chunk_id ∧
      (ChangeHit.mk "t" 0 "s" "c" "added" 1).change_type = md.change_type ∧
      (ChangeHit.mk "t" 0 "s" "c" "added" 1).similarity = md.similarity) ∧
    query_changes (load_vector_db 1 (fun _ => [0]) none none none none) "q" 5 = [] := by
  refine ⟨((c10_query_safety.1 _ "q" 3).1).1, ?_, (c10_query_safety.2 1 (fun _ => [0]) "q" 5).1⟩
  apply ((c10_query_safety.1
    (VectorDB.mk 1 (fun _ => [0]) [[0]] [⟨"s", "c", "added", 1, "t"⟩] [] []) "q" 3).2).1
  have he : query_changes
      (VectorDB.mk 1 (fun _ => [0]) [[0]] [⟨"s", "c", "added", 1, "t"⟩] [] []) "q" 3 =
      [ChangeHit.mk "t" 0 "s" "c" "added" 1] := by with_unfolding_all rfl
  rw [he]
  exact List.mem_singleton.2 rfl

/-! ## Claim C8: corrupt persisted state

The claim says an index/metadata count mismatch (or a one-sided pair) is
rejected — fail fast, no answers.  The code has no such check:
`__init__` silently starts fresh when either file is missing, and the
query loops silently skip out-of-range ids and answer from the overlap.
In this total model "fails fast / refuses to answer" can only mean
returning no hits, which the counterexample refutes with a
nonempty answer from a mismatched pair. -/

/-- Counterexample to C8: a store whose chunk index holds 2 vectors but
whose metadata list holds 1 record (a count mismatch) still answers a
query with a neighbor, and loading a lone index file without its
metadata silently yields a fresh empty pair instead of failing. -/
theorem c8_counterexample :
    ((VectorDB.mk 1 (fun _ => [0]) [[0], [1]] [⟨"s", "c", "added", 1, "t"⟩] [] []).chunk_index.length ≠
      (VectorDB.mk 1 (fun _ => [0]) [[0], [1]] [⟨"s", "c", "added", 1, "t"⟩] [] []).chunk_metadatas.length) ∧
    query_changes (VectorDB.mk 1 (fun _ => [0]) [[0], [1]] [⟨"s", "c", "added", 1, "t"⟩] [] []) "q" 2 =
      [{ text := "t", score := 0, section_id := "s", chunk_id := "c",
         change_type := "added", similarity := 1 }] ∧
    (load_vector_db 1 (fun _ => [0]) (some [[0]]) none none none).chunk_index = [] ∧
    (load_vector_db 1 (fun _ => [0]) (some [[0]]) none none none).chunk_metadatas = [] := by
  refine ⟨by decide, ?_, rfl, rfl⟩
  with_unfolding_all rfl

theorem faiss_search_ids (index : List (List ℚ)) (q : List ℚ) (k : Nat) :
    ∀ hit ∈ faiss_search index q k,
      hit.2 = -1 ∨ (0 ≤ hit.2 ∧ hit.2.toNat < index.length) := by
  intro hit hhit
  unfold faiss_search at hhit
  rcases List.mem_append.1 hhit with h | h
  · have hs : hit ∈ (index.enum.map fun p => (sqDist q p.2, (p.1 : Int))).mergeSort
        (fun x y => decide (x.1 ≤ y.1)) := List.mem_of_mem_take h
    have hp : hit ∈ index.enum.map fun p => (sqDist q p.2, (p.1 : Int)) :=
      (List.mergeSort_perm _ _).mem_iff.1 hs
    rcases List.mem_map.1 hp with ⟨p, hpe, hph⟩
    have hlen : p.1 < index.length := by
      rcases p with ⟨i, x⟩
      have := List.mk_mem_enum_iff_getElem?.1 hpe
      exact (List.getElem?_eq_some.1 this).1
    right
    rw [← hph]
    exact ⟨Int.natCast_nonneg _, by simpa using hlen⟩
  · left
    have := List.eq_of_mem_replicate h
    rw [this]

/-- C8 amended: mismatched or one-sided persisted state is **silently
tolerated**, not rejected.  Loading with either file of a pair missing
yields a fresh empty index and metadata list (the lone file is ignored);
at query time every returned hit comes from an id that is in range of
both the index and the metadata list (out-of-range ids of a mismatched
pair are silently skipped), and the query itself never fails. -/
theorem c8_amended :
    (∀ (dim : Nat) (enc : String → List ℚ) (ixf : Option (List (List ℚ)))
        (exf : Option (List (List ℚ))) (cmf : Option (List ChunkMeta))
        (emf : Option (List EventMeta)),
      ((load_vector_db dim enc ixf none exf none).chunk_index = [] ∧
       (load_vector_db dim enc ixf none exf none).chunk_metadatas = [] ∧
       (load_vector_db dim enc ixf none exf none).event_index = [] ∧
       (load_vector_db dim enc ixf none exf none).event_metadatas = []) ∧
      ((load_vector_db dim enc none cmf none emf).chunk_index = [] ∧
       (load_vector_db dim enc none cmf none emf).chunk_metadatas = [])) ∧
    (∀ (db : VectorDB) (q : String) (k : Nat) (r : ChangeHit),
      r ∈ query_changes db q k →
      ∃ i : Nat, i < db.chunk_index.length ∧
        ∃ h : i < db.chunk_metadatas.length,
          r.text = (db.chunk_metadatas.get ⟨i, h⟩).text ∧
          r.chunk_id = (db.chunk_metadatas.get ⟨i, h⟩).chunk_id) := by
  constructor
  · intro dim enc ixf exf cmf emf
    constructor
    · refine ⟨?_, ?_, ?_, ?_⟩ <;>
        simp [load_vector_db, load_pair] <;> cases ixf <;> cases exf <;> rfl
    · constructor <;> rfl
  · intro db q k r hr
    unfold query_changes at hr
    rcases List.mem_filterMap.1 hr with ⟨hit, hhit, hf⟩
    by_cases h : 0 ≤ hit.2 ∧ hit.2.toNat < db.chunk_metadatas.length
    · rw [dif_pos h] at hf
      rcases faiss_search_ids db.chunk_index (db.encoder q) k hit hhit with h1 | h1
      · exfalso
        rw [h1] at h
        exact absurd h.1 (by norm_num)
      · rcases Option.some.injEq _ _ ▸ hf with rfl
        exact ⟨hit.2.toNat, h1.2, h.2, rfl, rfl⟩
    · rw [dif_neg h] at hf
      cases hf

/-! ## Claim C5: the §8 mapping/detection scenario

`map_chunks` compares `threshold` against the *weighted* score
`0.7 * titleSim + 0.3 * contentSim`, not contentSim itself.  The
scenario's chunks carry no titles, so the weighted score is
`0.3 * 50/59 = 15/59 ≈ 0.254 < 0.6` and A maps to null — the claim's
mapping half is false; the detector half (one MODIFIED with score
`50/59 ≈ 0.85`) does hold. -/

/-- Counterexample to C5: with threshold 0.6 the scenario's A maps to
null (`some none`), not to B, because the weighted score is 15/59. -/
theorem c5_counterexample :
    vm_lookup (map_chunks [⟨"5", "A1", none, "The UE shall authenticate"⟩]
        [⟨"5", "B1", none, "The UE shall mutually authenticate"⟩]
        (7/10) (3/10) (6/10)) "A1" = some none ∧
    pair_score (7/10) (3/10) ⟨"5", "A1", none, "The UE shall authenticate"⟩
        ⟨"5", "B1", none, "The UE shall mutually authenticate"⟩ = 15/59 ∧
    (15/59 : ℚ) < 6/10 := by
  refine ⟨?_, ?_, by norm_num⟩
  · with_unfolding_all rfl
  · with_unfolding_all rfl

/-- C5 amended: contentSim is `50/59 ≈ 0.85`, but the *weighted* mapping
score `0.3 * 50/59` falls below the 0.6 threshold, so `map_chunks` maps
A to null; `detect_changes` still emits exactly one MODIFIED record with
`similarity_score = 50/59`. -/
theorem c5_amended :
    map_chunks [⟨"5", "A1", none, "The UE shall authenticate"⟩]
        [⟨"5", "B1", none, "The UE shall mutually authenticate"⟩]
        (7/10) (3/10) (6/10) = [("A1", none)] ∧
    compute_similarity "The UE shall authenticate"
        "The UE shall mutually authenticate" = 50/59 ∧
    ((84 : ℚ)/100 < 50/59 ∧ (50 : ℚ)/59 < 85/100) ∧
    detect_changes [⟨"5", "A1", none, "The UE shall authenticate"⟩]
        [⟨"5", "B1", none, "The UE shall mutually authenticate"⟩]
        (map_chunks [⟨"5", "A1", none, "The UE shall authenticate"⟩]
          [⟨"5", "B1", none, "The UE shall mutually authenticate"⟩]
          (7/10) (3/10) (6/10)) =
      [{ section_id := "5", chunk_id := "A1→B1",
         change_type := ChangeType.modified,
         old_content := "The UE shall authenticate",
         new_content := "The UE shall mutually authenticate",
         similarity_score := 50/59, moved_to := none }] := by
  refine ⟨?_, ?_, ⟨by norm_num, by norm_num⟩, ?_⟩
  · with_unfolding_all rfl
  · with_unfolding_all rfl
  · with_unfolding_all rfl

/-! ## Claim C4: MODIFIED pairing asymmetry of replace runs -/

/-- C4.  A replace run with 3 old chunks and 1 new chunk emits exactly
one MODIFIED record: the first old chunk of the run paired with the new
chunk, composite id `old→new`, score the content-similarity ratio, and
the remaining 2 old chunks of the run yield no record; shown generally
for the replace branch and end to end on a 3-vs-1 section. -/
theorem c4_replace_pairing_asymmetry :
    (∀ (sec : String) (olds news : List Chunk) (i1 j1 : Nat),
      processReplace sec olds news i1 (i1 + 3) j1 (j1 + 1) =
        [{ section_id := sec,
           chunk_id := (olds.getD i1 default).chunk_id ++ "→" ++
             (news.getD j1 default).chunk_id,
           change_type := ChangeType.modified,
           old_content := (olds.getD i1 default).content,
           new_content := (news.getD j1 default).content,
           similarity_score := compute_similarity (olds.getD i1 default).content
             (news.getD j1 default).content,
           moved_to := none }]) ∧
    detect_changes
      [⟨"1", "o1", none, "a"⟩, ⟨"1", "o2", none, "b"⟩, ⟨"1", "o3", none, "c"⟩]
      [⟨"1", "n1", none, "x"⟩] [] =
      [{ section_id := "1", chunk_id := "o1→n1",
         change_type := ChangeType.modified, old_content := "a",
         new_content := "x", similarity_score := 0, moved_to := none }] := by
  constructor
  · intro sec olds news i1 j1
    unfold processReplace
    have h3 : i1 + 3 - i1 = 3 := by omega
    have h1 : j1 + 1 - j1 = 1 := by omega
    rw [h3, h1]
    have hmin : min 3 1 = 1 := by decide
    have hr1 : List.range 1 = [0] := rfl
    rw [hmin, hr1]
    simp
  · with_unfolding_all rfl

/-! ## Claim C2: delete runs — MOVED vs REMOVED

`detect_changes` branches on Python truthiness of
`version_map.get(chunk_id)`, so a mapping to the *empty string* — a
non-null chunk id — produces REMOVED, not MOVED as the claim states. -/

/-- Counterexample to C2: the version map sends `o1` to the non-null id
`""`, yet the single deleted-run chunk is emitted as REMOVED. -/
theorem c2_counterexample :
    vm_get [("o1", some "")] "o1" = some "" ∧
    detect_changes [⟨"1", "o1", none, "a"⟩] [] [("o1", some "")] =
      [{ section_id := "1", chunk_id := "o1", change_type := ChangeType.removed,
         old_content := "a", new_content := "", similarity_score := 0,
         moved_to := none }] := by
  exact ⟨rfl, by with_unfolding_all rfl⟩

/-- C2 amended.  Each deleted-run old chunk yields exactly one record:
MOVED with score 1.0, empty new content and `moved_to` the mapped id
when the version map sends its chunk id to a non-null, **non-empty**
id; REMOVED with score 0.0 and empty new content otherwise (unmapped,
null, or empty); shown per entry of the delete branch plus both
end-to-end instances. -/
theorem c2_delete_run_classification :
    (∀ (sec : String) (olds : List Chunk) (vm : VersionMap) (i1 i2 : Nat),
      (processDelete sec olds vm i1 i2).length = i2 - i1 ∧
      ∀ t : Nat, t < i2 - i1 →
        (processDelete sec olds vm i1 i2).get? t =
          some (match vm_get vm (olds.getD (i1 + t) default).chunk_id with
            | some m =>
              if m = "" then
                { section_id := sec, chunk_id := (olds.getD (i1 + t) default).chunk_id,
                  change_type := ChangeType.removed,
                  old_content := (olds.getD (i1 + t) default).content,
                  new_content := "", similarity_score := 0, moved_to := none }
              else
                { section_id := sec, chunk_id := (olds.getD (i1 + t) default).chunk_id,
                  change_type := ChangeType.moved,
                  old_content := (olds.getD (i1 + t) default).content,
                  new_content := "", similarity_score := 1, moved_to := some m }
            | none =>
              { section_id := sec, chunk_id := (olds.getD (i1 + t) default).chunk_id,
                change_type := ChangeType.removed,
                old_content := (olds.getD (i1 + t) default).content,
                new_content := "", similarity_score := 0, moved_to := none })) ∧
    detect_changes [⟨"1", "o1", none, "a"⟩] [] [("o1", some "n5")] =
      [{ section_id := "1", chunk_id := "o1", change_type := ChangeType.moved,
         old_content := "a", new_content := "", similarity_score := 1,
         moved_to := some "n5" }] ∧
    detect_changes [⟨"1", "o1", none, "a"⟩] [] [] =
      [{ section_id := "1", chunk_id := "o1", change_type := ChangeType.removed,
         old_content := "a", new_content := "", similarity_score := 0,
         moved_to := none }] := by
  refine ⟨?_, by with_unfolding_all rfl, by with_unfolding_all rfl⟩
  intro sec olds vm i1 i2
  constructor
  · unfold processDelete
    rw [List.length_map, List.length_range']
  · intro t ht
    unfold processDelete
    rw [List.get?_eq_getElem?, List.getElem?_map, List.getElem?_range' _ _ ht]
    simp only [Option.map_some]
    cases hvm : vm_get vm (olds.getD (i1 + t) default).chunk_id with
    | none =>
      simp only [List.getD_eq_getElem?_getD] at hvm ⊢
      simp [truthyOpt, hvm]
    | some m =>
      by_cases hm : m = ""
      · simp only [List.getD_eq_getElem?_getD] at hvm ⊢
        simp [truthyOpt, hvm, hm]
      · simp only [List.getD_eq_getElem?_getD] at hvm ⊢
        simp [truthyOpt, hvm, hm]

/-- Witness for C2 amended at a one-element delete run. -/
theorem c2_delete_run_classification_witness :
    (processDelete "1" [⟨"1", "o1", none, "a"⟩] [("o1", some "n5")] 0 1).get? 0 =
      some { section_id := "1", chunk_id := "o1", change_type := ChangeType.moved,
             old_content := "a", new_content := "", similarity_score := 1,
             moved_to := some "n5" } :=
  (c2_delete_run_classification.1 "1" [⟨"1", "o1", none, "a"⟩]
    [("o1", some "n5")] 0 1).2 0 (by decide)

/-- Witness for C8 amended at the mismatched store. -/
theorem c8_amended_witness :
    ∃ i : Nat,
      i < (VectorDB.mk 1 (fun _ => [0]) [[0], [1]] [⟨"s", "c", "added", 1, "t"⟩] [] []).chunk_index.length ∧
      ∃ h : i < (VectorDB.mk 1 (fun _ => [0]) [[0], [1]] [⟨"s", "c", "added", 1, "t"⟩] [] []).chunk_metadatas.length,
        (ChangeHit.mk "t" 0 "s" "c" "added" 1).text =
          ((VectorDB.mk 1 (fun _ => [0]) [[0], [1]] [⟨"s", "c", "added", 1, "t"⟩] [] []).chunk_metadatas.get ⟨i, h⟩).text ∧
        (ChangeHit.mk "t" 0 "s" "c" "added" 1).chunk_id =
          ((VectorDB.mk 1 (fun _ => [0]) [[0], [1]] [⟨"s", "c", "added", 1, "t"⟩] [] []).chunk_metadatas.get ⟨i, h⟩).chunk_id := by
  apply c8_amended.2 _ "q" 2
  have he : query_changes
      (VectorDB.mk 1 (fun _ => [0]) [[0], [1]] [⟨"s", "c", "added", 1, "t"⟩] [] []) "q" 2 =
      [ChangeHit.mk "t" 0 "s" "c" "added" 1] := by with_unfolding_all rfl
  rw [he]
  exact List.mem_singleton.2 rfl

/-! ## Claim C3: the mapping threshold boundary

`map_chunks` keeps `best_chunk = None` until some score *strictly
exceeds* the running `best_score`, which starts at `0.0`.  When every
score is 0 and the threshold is 0, the maximum score equals the
threshold yet the chunk maps to null — the claim's boundary statement
fails there; it holds whenever the maximum score is positive. -/

theorem foldl_max_mem_le {β : Type} [LinearOrder β] (l : List β) :
    ∀ (b s : β), s ∈ l → s ≤ l.foldl max b := by
  induction l with
  | nil => intro b s hs; cases hs
  | cons x t ih =>
    intro b s hs
    rw [List.foldl_cons]
    rcases List.mem_cons.1 hs with rfl | hs
    · exact le_trans (le_max_right b s) (foldl_max_init_le t (max b s))
    · exact ih (max b x) s hs

theorem foldl_max_of_le {β : Type} [LinearOrder β] (l : List β) :
    ∀ b : β, (∀ s ∈ l, s ≤ b) → l.foldl max b = b := by
  induction l with
  | nil => intro b _; rfl
  | cons x t ih =>
    intro b hb
    rw [List.foldl_cons, max_eq_left (hb x (List.mem_cons_self x t))]
    exact ih b (fun s hs => hb s (List.mem_cons_of_mem x hs))

theorem foldl_max_cases {β : Type} [LinearOrder β] (l : List β) :
    ∀ b : β, l.foldl max b = b ∨ ∃ s ∈ l, l.foldl max b = s := by
  induction l with
  | nil => intro b; left; rfl
  | cons x t ih =>
    intro b
    rw [List.foldl_cons]
    rcases ih (max b x) with h | ⟨s, hs, h⟩
    · rcases max_cases b x with ⟨hm, _⟩ | ⟨hm, _⟩
      · left; rw [h, hm]
      · right; exact ⟨x, List.mem_cons_self x t, by rw [h, hm]⟩
    · right; exact ⟨s, List.mem_cons_of_mem x hs, h⟩

/-- The `for n in news` fold of `map_chunks` never updates when no score
beats the running best. -/
theorem bestMatch_fold_const (tw cw : ℚ) (o : Chunk) :
    ∀ (news : List Chunk) (b : ℚ) (copt : Option String),
      (∀ n ∈ news, pair_score tw cw o n ≤ b) →
      news.foldl
        (fun best n =>
          let score := pair_score tw cw o n
          if best.1 < score then (score, some n.chunk_id) else best)
        (b, copt) = (b, copt) := by
  intro news
  induction news with
  | nil => intro b copt _; rfl
  | cons n t ih =>
    intro b copt hb
    rw [List.foldl_cons]
    have : ¬ (b < pair_score tw cw o n) :=
      not_lt.2 (hb n (List.mem_cons_self n t))
    simp only [if_neg this]
    exact ih b copt (fun x hx => hb x (List.mem_cons_of_mem n hx))

/-- When some score strictly beats the initial best, the fold returns the
maximum score together with the id of the **first** chunk attaining it. -/
theorem bestMatch_fold_pos (tw cw : ℚ) (o : Chunk) :
    ∀ (news : List Chunk) (b : ℚ) (copt : Option String),
      b < (news.map (pair_score tw cw o)).foldl max b →
      news.foldl
        (fun best n =>
          let score := pair_score tw cw o n
          if best.1 < score then (score, some n.chunk_id) else best)
        (b, copt) =
      ((news.map (pair_score tw cw o)).foldl max b,
       (news.find? (fun n =>
          pair_score tw cw o n ==
            (news.map (pair_score tw cw o)).foldl max b)).map
         (fun n => n.chunk_id)) := by
  intro news
  induction news with
  | nil => intro b copt hb; exact absurd hb (lt_irrefl b)
  | cons n t ih =>
    intro b copt hb
    rw [List.foldl_cons]
    rw [List.map_cons, List.foldl_cons] at hb ⊢
    by_cases hs : pair_score tw cw o n ≤ b
    · have hmax : max b (pair_score tw cw o n) = b := max_eq_left hs
      rw [hmax] at hb ⊢
      have hlt : ¬ (b < pair_score tw cw o n) := not_lt.2 hs
      simp only [if_neg hlt]
      rw [ih b copt hb]
      have hne : ¬ (pair_score tw cw o n ==
          (t.map (pair_score tw cw o)).foldl max b) = true := by
        intro hc
        have heq : pair_score tw cw o n = (t.map (pair_score tw cw o)).foldl max b :=
          by simpa using hc
        rw [heq] at hs
        exact absurd hb (not_lt.2 hs)
      rw [List.find?_cons_of_neg _ (by simpa using hne)]
    · push_neg at hs
      have hmax : max b (pair_score tw cw o n) = pair_score tw cw o n :=
        max_eq_right (le_of_lt hs)
      rw [hmax] at hb ⊢
      simp only [if_pos hs]
      by_cases hall : ∀ u ∈ t.map (pair_score tw cw o), u ≤ pair_score tw cw o n
      · have hM : (t.map (pair_score tw cw o)).foldl max (pair_score tw cw o n) =
            pair_score tw cw o n := foldl_max_of_le _ _ hall
        rw [hM]
        rw [bestMatch_fold_const tw cw o t _ _
          (fun x hx => hall _ (List.mem_map_of_mem _ hx))]
        rw [List.find?_cons_of_pos _ (by simp)]
        rfl
      · push_neg at hall
        rcases hall with ⟨u, hu, hun⟩
        have hlt2 : pair_score tw cw o n <
            (t.map (pair_score tw cw o)).foldl max (pair_score tw cw o n) :=
          lt_of_lt_of_le hun (foldl_max_mem_le _ _ _ hu)
        rw [ih (pair_score tw cw o n) (some n.chunk_id) hlt2]
        have hne : ¬ (pair_score tw cw o n ==
            (t.map (pair_score tw cw o)).foldl max (pair_score tw cw o n)) = true := by
          intro hc
          have : pair_score tw cw o n =
              (t.map (pair_score tw cw o)).foldl max (pair_score tw cw o n) :=
            by simpa using hc
          rw [← this] at hlt2
          exact absurd hlt2 (lt_irrefl _)
        rw [List.find?_cons_of_neg _ (by simpa using hne)]

theorem find?_of_unique {γ : Type} (p : γ → Bool) (l : List γ) (a : γ)
    (ha : a ∈ l) (hpa : p a = true) (huniq : ∀ x ∈ l, p x = true → x = a) :
    l.find? p = some a := by
  induction l with
  | nil => cases ha
  | cons x t ih =>
    by_cases hx : p x = true
    · rw [List.find?_cons_of_pos _ hx]
      rw [huniq x (List.mem_cons_self x t) hx]
    · rw [List.find?_cons_of_neg _ hx]
      rcases List.mem_cons.1 ha with rfl | ha2
      · exact absurd hpa hx
      · exact ih ha2 (fun y hy hpy => huniq y (List.mem_cons_of_mem x hy) hpy)

/-- The dict entry `map_chunks` produces for an old chunk `o` (the old
chunk ids being distinct, `o`'s entry is the unique binding of its id):
threshold met ⟶ the fold's best chunk, else null. -/
theorem map_chunks_lookup (old_chunks new_chunks : List Chunk)
    (tw cw th : ℚ) (o : Chunk) (ho : o ∈ old_chunks)
    (hid : (old_chunks.map (fun c => c.chunk_id)).Nodup) :
    vm_lookup (map_chunks old_chunks new_chunks tw cw th) o.chunk_id =
      some (if th ≤ (bestMatch tw cw o
          (new_chunks.filter (fun c => c.section_id == o.section_id))).1
        then (bestMatch tw cw o
          (new_chunks.filter (fun c => c.section_id == o.section_id))).2
        else none) := by
  have hinj : ∀ x ∈ old_chunks, ∀ y ∈ old_chunks,
      x.chunk_id = y.chunk_id → x = y := by
    intro x hx y hy hxy
    exact List.inj_on_of_nodup_map hid hx hy hxy
  have hsec : o.section_id ∈ (old_chunks.map (fun c => c.section_id)).dedup :=
    List.mem_dedup.2 (List.mem_map_of_mem _ ho)
  unfold vm_lookup map_chunks
  have key : ∀ S : List String, o.section_id ∈ S →
      (S.flatMap fun sec =>
        (old_chunks.filter (fun c => c.section_id == sec)).map fun c =>
          (c.chunk_id,
            if th ≤ (bestMatch tw cw c
                (new_chunks.filter (fun x => x.section_id == sec))).1
            then (bestMatch tw cw c
                (new_chunks.filter (fun x => x.section_id == sec))).2
            else none)).find? (fun p => p.1 == o.chunk_id) =
      some (o.chunk_id,
        if th ≤ (bestMatch tw cw o
            (new_chunks.filter (fun x => x.section_id == o.section_id))).1
        then (bestMatch tw cw o
            (new_chunks.filter (fun x => x.section_id == o.section_id))).2
        else none) := by
    intro S
    induction S with
    | nil => intro hS; cases hS
    | cons s rest ih =>
      intro hS
      rw [List.flatMap_cons, List.find?_append]
      by_cases hso : s = o.section_id
      · subst hso
        have hfind : ((old_chunks.filter
              (fun c => c.section_id == o.section_id)).map fun c =>
            (c.chunk_id,
              if th ≤ (bestMatch tw cw c
                  (new_chunks.filter (fun x => x.section_id == o.section_id))).1
              then (bestMatch tw cw c
                  (new_chunks.filter (fun x => x.section_id == o.section_id))).2
              else none)).find? (fun p => p.1 == o.chunk_id) =
            some (o.chunk_id,
              if th ≤ (bestMatch tw cw o
                  (new_chunks.filter (fun x => x.section_id == o.section_id))).1
              then (bestMatch tw cw o
                  (new_chunks.filter (fun x => x.section_id == o.section_id))).2
              else none) := by
          apply find?_of_unique
          · apply List.mem_map_of_mem
            exact List.mem_filter.2 ⟨ho, by simp⟩
          · simp
          · intro x hx hpx
            rcases List.mem_map.1 hx with ⟨c, hc, hcx⟩
            have hcm : c ∈ old_chunks := (List.mem_filter.1 hc).1
            have hcid : c.chunk_id = o.chunk_id := by
              rw [← hcx] at hpx
              simpa using hpx
            have : c = o := hinj c hcm o ho hcid
            rw [← hcx, this]
        rw [hfind]
        rfl
      · have hnone : ((old_chunks.filter (fun c => c.section_id == s)).map fun c =>
            (c.chunk_id,
              if th ≤ (bestMatch tw cw c
                  (new_chunks.filter (fun x => x.section_id == s))).1
              then (bestMatch tw cw c
                  (new_chunks.filter (fun x => x.section_id == s))).2
              else none)).find? (fun p => p.1 == o.chunk_id) = none := by
          rw [List.find?_eq_none]
          intro x hx hpx
          rcases List.mem_map.1 hx with ⟨c, hc, hcx⟩
          rcases List.mem_filter.1 hc with ⟨hcm, hcs⟩
          have hcid : c.chunk_id = o.chunk_id := by
            rw [← hcx] at hpx
            simpa using hpx
          have hco : c = o := hinj c hcm o ho hcid
          rw [hco] at hcs
          have hos : o.section_id = s := by simpa using hcs
          exact hso hos.symm
        rw [hnone]
        rw [Option.none_or]
        apply ih
        rcases List.mem_cons.1 hS with h | h
        · exact absurd h.symm hso
        · exact h
  rw [key _ hsec]
  rfl

/-- Counterexample to C3: with threshold 0, one old chunk `"a"` and one
same-section new chunk `"b"` (similarity 0), the maximum weighted score
is 0, exactly equal to the threshold — yet `map_chunks` maps the old
chunk to null, not to the best-scoring new chunk, because `best_chunk`
is only set on a strict improvement over the initial `0.0`. -/
theorem c3_counterexample :
    pair_score (7/10) (3/10) ⟨"1", "o1", none, "a"⟩ ⟨"1", "n1", none, "b"⟩ = 0 ∧
    map_chunks [⟨"1", "o1", none, "a"⟩] [⟨"1", "n1", none, "b"⟩]
      (7/10) (3/10) 0 = [("o1", none)] := by
  constructor
  · with_unfolding_all rfl
  · with_unfolding_all rfl

/-- C3 amended.  For non-negative weights and distinct old chunk ids,
whenever the maximum weighted score over the same-section new chunks is
**positive**: a maximum exactly equal to the threshold maps the old
chunk to the first best-scoring new chunk id (shown for every threshold
`th ≤ max`), and a maximum strictly below the threshold maps it to null
(the null case needs no positivity).  When the maximum is 0 and equals
the threshold the chunk maps to null instead — the correction forced by
the counterexample. -/
theorem c3_threshold_boundary (old_chunks new_chunks : List Chunk)
    (tw cw th : ℚ) (o : Chunk) (ho : o ∈ old_chunks)
    (hid : (old_chunks.map (fun c => c.chunk_id)).Nodup) :
    ((0 : ℚ) < ((new_chunks.filter (fun c => c.section_id == o.section_id)).map
          (pair_score tw cw o)).foldl max 0 →
      th ≤ ((new_chunks.filter (fun c => c.section_id == o.section_id)).map
          (pair_score tw cw o)).foldl max 0 →
      vm_lookup (map_chunks old_chunks new_chunks tw cw th) o.chunk_id =
        some (((new_chunks.filter (fun c => c.section_id == o.section_id)).find?
          (fun n => pair_score tw cw o n ==
            ((new_chunks.filter (fun c => c.section_id == o.section_id)).map
              (pair_score tw cw o)).foldl max 0)).map (fun n => n.chunk_id))) ∧
    (((new_chunks.filter (fun c => c.section_id == o.section_id)).map
          (pair_score tw cw o)).foldl max 0 < th →
      vm_lookup (map_chunks old_chunks new_chunks tw cw th) o.chunk_id =
        some none) := by
  have hlk := map_chunks_lookup old_chunks new_chunks tw cw th o ho hid
  constructor
  · intro hpos hth
    rw [hlk]
    rw [bestMatch]
    rw [bestMatch_fold_pos tw cw o _ 0 none hpos]
    rw [if_pos hth]
  · intro hlt
    rw [hlk]
    by_cases hpos : (0 : ℚ) <
        ((new_chunks.filter (fun c => c.section_id == o.section_id)).map
          (pair_score tw cw o)).foldl max 0
    · rw [bestMatch, bestMatch_fold_pos tw cw o _ 0 none hpos]
      rw [if_neg (not_le.2 hlt)]
    · push_neg at hpos
      have hall : ∀ n ∈ new_chunks.filter (fun c => c.section_id == o.section_id),
          pair_score tw cw o n ≤ 0 := by
        intro n hn
        exact le_trans (foldl_max_mem_le _ 0 _ (List.mem_map_of_mem _ hn)) hpos
      rw [bestMatch, bestMatch_fold_const tw cw o _ 0 none hall]
      have hz : ((0 : ℚ), (none : Option String)).1 = 0 := rfl
      by_cases hth0 : th ≤ (0 : ℚ)
      · rw [if_pos hth0]
      · rw [if_neg hth0]

/-- Witness for C3: threshold 3/10, one identical-content pair scores
exactly `0.3 * 1 = 3/10`, positive and equal to the threshold, and maps. -/
theorem c3_threshold_boundary_witness :
    vm_lookup (map_chunks [⟨"1", "o1", none, "ab"⟩] [⟨"1", "n1", none, "ab"⟩]
      (7/10) (3/10) (3/10)) "o1" = some (some "n1") := by
  have hM : (([⟨"1", "n1", none, "ab"⟩].filter
      (fun c => c.section_id == (⟨"1", "o1", none, "ab"⟩ : Chunk).section_id)).map
        (pair_score (7/10) (3/10) ⟨"1", "o1", none, "ab"⟩)).foldl max 0 = 3/10 := by
    with_unfolding_all rfl
  have h := (c3_threshold_boundary [⟨"1", "o1", none, "ab"⟩] [⟨"1", "n1", none, "ab"⟩]
    (7/10) (3/10) (3/10) ⟨"1", "o1", none, "ab"⟩
    (List.mem_singleton.2 rfl) (by simp)).1
    (by rw [hM]; norm_num) (by rw [hM])
  rw [h]
  with_unfolding_all rfl

/-! ## Tiling of get_opcodes -/

theorem blocksWithin_mono_lower {i j i2 j2 ei ej : Nat}
    (h1 : i2 ≤ i) (h2 : j2 ≤ j) :
    ∀ {l : List (Nat × Nat × Nat)}, BlocksWithin i j ei ej l →
      BlocksWithin i2 j2 ei ej l := by
  intro l
  cases l with
  | nil => intro _; trivial
  | cons b rest =>
    obtain ⟨ai, bj, k⟩ := b
    intro ⟨ha, hb, hc, hd, he⟩
    exact ⟨le_trans h1 ha, le_trans h2 hb, hc, hd, he⟩

theorem blocksWithin_append {ei ej m1 m2 : Nat} :
    ∀ {xs ys : List (Nat × Nat × Nat)} {i j : Nat},
      BlocksWithin i j m1 m2 xs → BlocksWithin m1 m2 ei ej ys →
      i ≤ m1 → j ≤ m2 → m1 ≤ ei → m2 ≤ ej →
      BlocksWithin i j ei ej (xs ++ ys) := by
  intro xs
  induction xs with
  | nil =>
    intro ys i j _ hys hi hj _ _
    simpa using blocksWithin_mono_lower hi hj hys
  | cons b rest ih =>
    obtain ⟨ai, bj, k⟩ := b
    intro ys i j hxs hys hi hj he1 he2
    obtain ⟨ha, hb, hc, hd, he⟩ := hxs
    exact ⟨ha, hb, le_trans hc he1, le_trans hd he2,
      ih he hys (by omega) (by omega) he1 he2⟩

theorem matchingBlocksAux_within (a b : List α) :
    ∀ (fuel alo ahi blo bhi : Nat),
      BlocksWithin alo blo ahi bhi (matchingBlocksAux a b fuel alo ahi blo bhi) := by
  intro fuel
  induction fuel with
  | zero => intro alo ahi blo bhi; trivial
  | succ fuel ih =>
    intro alo ahi blo bhi
    rw [matchingBlocksAux]
    by_cases hk : (find_longest_match a b alo ahi blo bhi).2.2 = 0
    · simp only [hk, if_pos]
      trivial
    · simp only [hk, if_neg, if_false]
      obtain ⟨h1, h2, h3, h4⟩ := flm_bounds_of_pos a b alo ahi blo bhi hk
      have hmid : BlocksWithin (find_longest_match a b alo ahi blo bhi).1
          (find_longest_match a b alo ahi blo bhi).2.1 ahi bhi
          ([find_longest_match a b alo ahi blo bhi] ++
            (if (find_longest_match a b alo ahi blo bhi).1 +
                (find_longest_match a b alo ahi blo bhi).2.2 < ahi ∧
                (find_longest_match a b alo ahi blo bhi).2.1 +
                (find_longest_match a b alo ahi blo bhi).2.2 < bhi then
              matchingBlocksAux a b fuel
                ((find_longest_match a b alo ahi blo bhi).1 +
                  (find_longest_match a b alo ahi blo bhi).2.2) ahi
                ((find_longest_match a b alo ahi blo bhi).2.1 +
                  (find_longest_match a b alo ahi blo bhi).2.2) bhi
            else [])) := by
        refine ⟨le_refl _, le_refl _, h2, h4, ?_⟩
        by_cases hg : (find_longest_match a b alo ahi blo bhi).1 +
            (find_longest_match a b alo ahi blo bhi).2.2 < ahi ∧
            (find_longest_match a b alo ahi blo bhi).2.1 +
            (find_longest_match a b alo ahi blo bhi).2.2 < bhi
        · rw [if_pos hg]
          exact ih _ ahi _ bhi
        · rw [if_neg hg]
          trivial
      by_cases hg2 : alo < (find_longest_match a b alo ahi blo bhi).1 ∧
          blo < (find_longest_match a b alo ahi blo bhi).2.1
      · rw [if_pos hg2]
        rw [List.append_assoc]
        exact blocksWithin_append (ih alo _ blo _) hmid
          (le_of_lt hg2.1) (le_of_lt hg2.2) (by omega) (by omega)
      · rw [if_neg hg2]
        simpa using blocksWithin_mono_lower h1 h3 hmid

theorem mergeBlocksAux_within {ei ej : Nat} :
    ∀ (l : List (Nat × Nat × Nat)) (cur : Nat × Nat × Nat) (i j : Nat),
      BlocksWithin i j ei ej (cur :: l) →
      BlocksWithin i j ei ej (mergeBlocksAux cur l) := by
  intro l
  induction l with
  | nil =>
    intro cur i j h
    obtain ⟨i1, j1, k1⟩ := cur
    obtain ⟨h1, h2, h3, h4, _⟩ := h
    rw [mergeBlocksAux]
    by_cases hk : k1 ≠ 0
    · rw [if_pos hk]
      exact ⟨h1, h2, h3, h4, trivial⟩
    · rw [if_neg hk]
      trivial
  | cons nxt rest ih =>
    intro cur i j h
    obtain ⟨i1, j1, k1⟩ := cur
    obtain ⟨i2, j2, k2⟩ := nxt
    obtain ⟨h1, h2, h3, h4, h5, h6, h7, h8, h9⟩ := h
    rw [mergeBlocksAux]
    by_cases hadj : i1 + k1 = i2 ∧ j1 + k1 = j2
    · rw [if_pos hadj]
      apply ih (i1, j1, k1 + k2) i j
      refine ⟨h1, h2, by omega, by omega, ?_⟩
      have : i1 + (k1 + k2) = i2 + k2 := by omega
      rw [this]
      have : j1 + (k1 + k2) = j2 + k2 := by omega
      rw [this]
      exact h9
    · rw [if_neg hadj]
      by_cases hk : k1 ≠ 0
      · rw [if_pos hk]
        refine ⟨h1, h2, h3, h4, ?_⟩
        simpa using ih (i2, j2, k2) (i1 + k1) (j1 + k1) ⟨h5, h6, h7, h8, h9⟩
      · rw [if_neg hk]
        simp only [List.nil_append]
        push_neg at hk
        apply ih (i2, j2, k2) i j
        exact ⟨by omega, by omega, h7, h8, h9⟩

theorem blocksTile_of_within {ei ej : Nat} :
    ∀ {xs : List (Nat × Nat × Nat)} {i j : Nat},
      BlocksWithin i j ei ej xs → i ≤ ei → j ≤ ej →
      BlocksTile i j ei ej (xs ++ [(ei, ej, 0)]) := by
  intro xs
  induction xs with
  | nil =>
    intro i j _ hi hj
    exact ⟨hi, hj, rfl, rfl⟩
  | cons b rest ih =>
    obtain ⟨ai, bj, k⟩ := b
    intro i j h hi hj
    obtain ⟨h1, h2, h3, h4, h5⟩ := h
    exact ⟨h1, h2, ih h5 h3 h4⟩

/-- The matching blocks of any two sequences tile `[0, len a) × [0, len b)`,
ending exactly at the sentinel. -/
theorem get_matching_blocks_tile (a b : List α) :
    BlocksTile 0 0 a.length b.length (get_matching_blocks a b) := by
  unfold get_matching_blocks
  apply blocksTile_of_within _ (Nat.zero_le _) (Nat.zero_le _)
  apply mergeBlocksAux_within
  exact ⟨Nat.zero_le _, Nat.zero_le _, Nat.zero_le _, Nat.zero_le _,
    matchingBlocksAux_within a b _ 0 a.length 0 b.length⟩

theorem opsTile_of_blocksTile {ei ej : Nat} :
    ∀ (bs : List (Nat × Nat × Nat)) (i j : Nat),
      BlocksTile i j ei ej bs →
      OpsTile i j ei ej (opcodesFromBlocks i j bs) := by
  intro bs
  induction bs with
  | nil =>
    intro i j h
    exact h
  | cons b rest ih =>
    obtain ⟨ai, bj, k⟩ := b
    intro i j h
    obtain ⟨h1, h2, h3⟩ := h
    rw [opcodesFromBlocks]
    have htail : OpsTile ai bj ei ej
        ((if k ≠ 0 then [(OpTag.equal, ai, ai + k, bj, bj + k)] else []) ++
          opcodesFromBlocks (ai + k) (bj + k) rest) := by
      by_cases hk : k ≠ 0
      · rw [if_pos hk]
        exact ⟨rfl, rfl, by omega, by omega, ih _ _ h3⟩
      · rw [if_neg hk]
        push_neg at hk
        subst hk
        simpa using ih _ _ h3
    by_cases hr : i < ai ∧ j < bj
    · rw [if_pos hr]
      exact ⟨rfl, rfl, le_of_lt hr.1, le_of_lt hr.2, htail⟩
    · rw [if_neg hr]
      by_cases hd : i < ai
      · rw [if_pos hd]
        have hj : j = bj := by omega
        subst hj
        exact ⟨rfl, rfl, le_of_lt hd, le_refl j, htail⟩
      · rw [if_neg hd]
        have hi : i = ai := by omega
        subst hi
        by_cases hins : j < bj
        · rw [if_pos hins]
          exact ⟨rfl, rfl, le_refl i, le_of_lt hins, htail⟩
        · rw [if_neg hins]
          have hj : j = bj := by omega
          subst hj
          simpa using htail

/-- The edit script of any two sequences tiles
`[0, len a) × [0, len b)`. -/
theorem get_opcodes_tile (a b : List α) :
    OpsTile 0 0 a.length b.length (get_opcodes a b) := by
  unfold get_opcodes
  exact opsTile_of_blocksTile _ 0 0 (get_matching_blocks_tile a b)

theorem opsTile_le {ei ej : Nat} :
    ∀ {ops : List (OpTag × Nat × Nat × Nat × Nat)} {i j : Nat},
      OpsTile i j ei ej ops → i ≤ ei ∧ j ≤ ej := by
  intro ops
  induction ops with
  | nil =>
    intro i j h
    obtain ⟨ha, hb⟩ := h
    omega
  | cons op rest ih =>
    obtain ⟨t, i1, i2, j1, j2⟩ := op
    intro i j h
    obtain ⟨h1, h2, h3, h4, h5⟩ := h
    have := ih h5
    omega

/-- Every opcode's ranges are within bounds and well-ordered. -/
theorem opsTile_mem_bounds {ei ej : Nat} :
    ∀ {ops : List (OpTag × Nat × Nat × Nat × Nat)} {i j : Nat},
      OpsTile i j ei ej ops →
      ∀ op ∈ ops, i ≤ op.2.1 ∧ op.2.1 ≤ op.2.2.1 ∧ op.2.2.1 ≤ ei ∧
        j ≤ op.2.2.2.1 ∧ op.2.2.2.1 ≤ op.2.2.2.2 ∧ op.2.2.2.2 ≤ ej := by
  intro ops
  induction ops with
  | nil => intro i j _ op hop; cases hop
  | cons o rest ih =>
    obtain ⟨t, i1, i2, j1, j2⟩ := o
    intro i j h op hop
    obtain ⟨h1, h2, h3, h4, h5⟩ := h
    rcases List.mem_cons.1 hop with rfl | hop2
    · have := opsTile_le h5
      simp only
      omega
    · have := ih h5 op hop2
      omega

/-! ## Claim C6: failure behaviour on malformed chunk records

The source subscripts plain dicts; a missing `section_id`/`content` key
raises `KeyError(<key name>)`.  There is no `MissingFieldError` anywhere
in the repository and the raised error does not name the offending
chunk_id — the claim's error shape is wrong; the fail/no-fail dichotomy
is right. -/

theorem except_bind_error {ε β γ : Type} (e : ε) (g : β → Except ε γ) :
    (Except.error e : Except ε β) >>= g = Except.error e := rfl

theorem except_bind_ok {ε β γ : Type} (y : β) (g : β → Except ε γ) :
    (Except.ok y : Except ε β) >>= g = g y := rfl

theorem exceptMapM_ok {ε β γ : Type} (f : β → Except ε γ) :
    ∀ (l : List β) (ys : List γ), l.mapM f = Except.ok ys →
      (∀ y ∈ ys, ∃ x ∈ l, f x = Except.ok y) ∧
      ys.length = l.length ∧
      (∀ x ∈ l, ∃ y ∈ ys, f x = Except.ok y) := by
  intro l
  induction l with
  | nil =>
    intro ys h
    rw [List.mapM_nil] at h
    cases h
    refine ⟨?_, rfl, ?_⟩
    · intro y hy; cases hy
    · intro x hx; cases hx
  | cons x t ih =>
    intro ys h
    rw [List.mapM_cons] at h
    cases hfx : f x with
    | error e =>
      rw [hfx, except_bind_error] at h
      cases h
    | ok y =>
      rw [hfx, except_bind_ok] at h
      cases hmt : t.mapM f with
      | error e =>
        rw [hmt, except_bind_error] at h
        cases h
      | ok ts =>
        rw [hmt, except_bind_ok] at h
        have hys : ys = y :: ts := by
          have h2 : (Except.ok (y :: ts) : Except ε (List γ)) = Except.ok ys := h
          cases h2
          rfl
        subst hys
        obtain ⟨hmem, hlen, hfwd⟩ := ih ts hmt
        refine ⟨?_, by simpa using hlen, ?_⟩
        · intro z hz
          rcases List.mem_cons.1 hz with rfl | hz2
          · exact ⟨x, List.mem_cons_self x t, hfx⟩
          · rcases hmem z hz2 with ⟨w, hw, hfw⟩
            exact ⟨w, List.mem_cons_of_mem x hw, hfw⟩
        · intro w hw
          rcases List.mem_cons.1 hw with rfl | hw2
          · exact ⟨y, List.mem_cons_self y ts, hfx⟩
          · rcases hfwd w hw2 with ⟨z, hz, hfz⟩
            exact ⟨z, List.mem_cons_of_mem y hz, hfz⟩

theorem exceptMapM_error {ε β γ : Type} (f : β → Except ε γ) :
    ∀ (l : List β) (e : ε), l.mapM f = Except.error e →
      ∃ x ∈ l, f x = Except.error e := by
  intro l
  induction l with
  | nil =>
    intro e h
    rw [List.mapM_nil] at h
    cases h
  | cons x t ih =>
    intro e h
    rw [List.mapM_cons] at h
    cases hfx : f x with
    | error e2 =>
      rw [hfx, except_bind_error] at h
      have h2 : e2 = e := by
        cases h
        rfl
      rw [h2] at hfx
      exact ⟨x, List.mem_cons_self x t, hfx⟩
    | ok y =>
      rw [hfx, except_bind_ok] at h
      cases hmt : t.mapM f with
      | error e2 =>
        rw [hmt, except_bind_error] at h
        have h2 : e2 = e := by
          cases h
          rfl
        rw [h2] at hmt
        rcases ih e hmt with ⟨w, hw, hfw⟩
        exact ⟨w, List.mem_cons_of_mem x hw, hfw⟩
      | ok ts =>
        rw [hmt, except_bind_ok] at h
        cases h

theorem exceptMapM_ok_of_forall {ε β γ : Type} (f : β → Except ε γ) :
    ∀ (l : List β), (∀ x ∈ l, ∃ y, f x = Except.ok y) →
      ∃ ys, l.mapM f = Except.ok ys := by
  intro l
  induction l with
  | nil => intro _; exact ⟨[], rfl⟩
  | cons x t ih =>
    intro h
    rcases h x (List.mem_cons_self x t) with ⟨y, hy⟩
    rcases ih (fun w hw => h w (List.mem_cons_of_mem x hw)) with ⟨ts, hts⟩
    refine ⟨y :: ts, ?_⟩
    rw [List.mapM_cons, hy, hts]
    rfl

theorem tagSection_error (c : RawChunk) (e : String)
    (h : tagSection c = Except.error e) :
    e = "section_id" ∧ c.section_id = none := by
  unfold tagSection keyGet at h
  cases hcs : c.section_id with
  | none =>
    rw [hcs] at h
    rw [except_bind_error] at h
    cases h
    exact ⟨rfl, rfl⟩
  | some v =>
    rw [hcs] at h
    rw [except_bind_ok] at h
    cases h

theorem tagSection_ok (c : RawChunk) (p : String × RawChunk)
    (h : tagSection c = Except.ok p) :
    c.section_id = some p.1 ∧ p.2 = c := by
  unfold tagSection keyGet at h
  cases hcs : c.section_id with
  | none =>
    rw [hcs] at h
    rw [except_bind_error] at h
    cases h
  | some v =>
    rw [hcs] at h
    rw [except_bind_ok] at h
    cases h
    exact ⟨rfl, rfl⟩

theorem rawContent_error (c : RawChunk) (e : String)
    (h : rawContent c = Except.error e) :
    e = "content" ∧ c.content = none := by
  unfold rawContent keyGet at h
  cases hcs : c.content with
  | none =>
    rw [hcs] at h
    cases h
    exact ⟨rfl, rfl⟩
  | some v =>
    rw [hcs] at h
    cases h

theorem except_bind_inv {ε β γ : Type} (x : Except ε β) (g : β → Except ε γ)
    (e : ε) (h : x >>= g = Except.error e) :
    x = Except.error e ∨ ∃ y, x = Except.ok y ∧ g y = Except.error e := by
  cases x with
  | error e2 =>
    rw [except_bind_error] at h
    cases h
    exact Or.inl rfl
  | ok y =>
    rw [except_bind_ok] at h
    exact Or.inr ⟨y, rfl, h⟩

theorem except_bind_ok_inv {ε β γ : Type} (x : Except ε β) (g : β → Except ε γ)
    (l : γ) (h : x >>= g = Except.ok l) :
    ∃ y, x = Except.ok y ∧ g y = Except.ok l := by
  cases x with
  | error e2 =>
    rw [except_bind_error] at h
    cases h
  | ok y =>
    rw [except_bind_ok] at h
    exact ⟨y, rfl, h⟩

theorem keyGet_error (k : String) (o : Option String) (e : String)
    (h : keyGet k o = Except.error e) : e = k ∧ o = none := by
  unfold keyGet at h
  cases o with
  | none => cases h; exact ⟨rfl, rfl⟩
  | some v => cases h

theorem keyGet_ok (k : String) (o : Option String) (v : String)
    (h : keyGet k o = Except.ok v) : o = some v := by
  unfold keyGet at h
  cases o with
  | none => cases h
  | some w => cases h; rfl

theorem getD_mem_of_lt {β : Type} [Inhabited β] (l : List β) (i : Nat)
    (h : i < l.length) : l.getD i default ∈ l := by
  rw [List.getD_eq_getElem?_getD, List.getElem?_eq_getElem h]
  exact List.getElem_mem _

theorem processOpcodeRaw_error (sec : String) (olds news : List RawChunk)
    (vm : VersionMap) (op : OpTag × Nat × Nat × Nat × Nat) (e : String)
    (hb : op.2.2.1 ≤ olds.length ∧ op.2.2.2.2 ≤ news.length)
    (h : processOpcodeRaw sec olds news vm op = Except.error e) :
    (e = "chunk_id" ∨ e = "content") ∧
    ∃ c, (c ∈ olds ∨ c ∈ news) ∧ rawField c e = none := by
  obtain ⟨t, i1, i2, j1, j2⟩ := op
  simp only at hb
  cases t with
  | equal => cases h
  | delete =>
    simp only [processOpcodeRaw] at h
    rcases exceptMapM_error _ _ _ h with ⟨idx, hidx, hinner⟩
    rcases List.mem_range'.1 hidx with ⟨d, hd, hde⟩
    have hlt : idx < olds.length := by omega
    have hmem : olds.getD idx default ∈ olds := getD_mem_of_lt olds idx hlt
    rcases except_bind_inv _ _ _ hinner with h1 | ⟨cid, hcid, h2⟩
    · obtain ⟨he, hn⟩ := keyGet_error _ _ _ h1
      exact ⟨Or.inl he, olds.getD idx default, Or.inl hmem,
        by rw [he]; simp only [List.getD_eq_getElem?_getD] at hn; simp [rawField, hn]⟩
    · rcases except_bind_inv _ _ _ h2 with h3 | ⟨con, hcon, h4⟩
      · obtain ⟨he, hn⟩ := keyGet_error _ _ _ h3
        exact ⟨Or.inr he, olds.getD idx default, Or.inl hmem,
          by rw [he]; simp only [List.getD_eq_getElem?_getD] at hn; simp [rawField, hn]⟩
      · by_cases hmv : truthyOpt (vm_get vm cid) = true
        · rw [if_pos hmv] at h4
          cases h4
        · rw [if_neg hmv] at h4
          cases h4
  | insert =>
    simp only [processOpcodeRaw] at h
    rcases except_bind_inv _ _ _ h with h1 | ⟨parts, hparts, h2⟩
    · rcases exceptMapM_error _ _ _ h1 with ⟨idx, hidx, hinner⟩
      rcases List.mem_range'.1 hidx with ⟨d, hd, hde⟩
      have hlt : idx < news.length := by omega
      have hmem : news.getD idx default ∈ news := getD_mem_of_lt news idx hlt
      rcases except_bind_inv _ _ _ hinner with h3 | ⟨cid, hcid, h4⟩
      · obtain ⟨he, hn⟩ := keyGet_error _ _ _ h3
        exact ⟨Or.inl he, news.getD idx default, Or.inr hmem,
          by rw [he]; simp only [List.getD_eq_getElem?_getD] at hn; simp [rawField, hn]⟩
      · by_cases hmv : vm_has_value vm cid = true
        · rw [if_pos hmv] at h4
          cases h4
        · rw [if_neg hmv] at h4
          rcases except_bind_inv _ _ _ h4 with h5 | ⟨con, hcon, h6⟩
          · obtain ⟨he, hn⟩ := keyGet_error _ _ _ h5
            exact ⟨Or.inr he, news.getD idx default, Or.inr hmem,
              by rw [he]; simp only [List.getD_eq_getElem?_getD] at hn; simp [rawField, hn]⟩
          · cases h6
    · cases h2
  | replace =>
    simp only [processOpcodeRaw] at h
    rcases exceptMapM_error _ _ _ h with ⟨k, hk, hinner⟩
    have hkr : k < min (i2 - i1) (j2 - j1) := List.mem_range.1 hk
    have hlto : i1 + k < olds.length := by omega
    have hltn : j1 + k < news.length := by omega
    have hmemo : olds.getD (i1 + k) default ∈ olds := getD_mem_of_lt _ _ hlto
    have hmemn : news.getD (j1 + k) default ∈ news := getD_mem_of_lt _ _ hltn
    rcases except_bind_inv _ _ _ hinner with h1 | ⟨oc, hoc, h2⟩
    · obtain ⟨he, hn⟩ := keyGet_error _ _ _ h1
      exact ⟨Or.inr he, olds.getD (i1 + k) default, Or.inl hmemo,
        by rw [he]; simp only [List.getD_eq_getElem?_getD] at hn; simp [rawField, hn]⟩
    · rcases except_bind_inv _ _ _ h2 with h3 | ⟨nc, hnc, h4⟩
      · obtain ⟨he, hn⟩ := keyGet_error _ _ _ h3
        exact ⟨Or.inr he, news.getD (j1 + k) default, Or.inr hmemn,
          by rw [he]; simp only [List.getD_eq_getElem?_getD] at hn; simp [rawField, hn]⟩
      · rcases except_bind_inv _ _ _ h4 with h5 | ⟨ocid, hocid, h6⟩
        · obtain ⟨he, hn⟩ := keyGet_error _ _ _ h5
          exact ⟨Or.inl he, olds.getD (i1 + k) default, Or.inl hmemo,
            by rw [he]; simp only [List.getD_eq_getElem?_getD] at hn; simp [rawField, hn]⟩
        · rcases except_bind_inv _ _ _ h6 with h7 | ⟨ncid, hncid, h8⟩
          · obtain ⟨he, hn⟩ := keyGet_error _ _ _ h7
            exact ⟨Or.inl he, news.getD (j1 + k) default, Or.inr hmemn,
              by rw [he]; simp only [List.getD_eq_getElem?_getD] at hn; simp [rawField, hn]⟩
          · cases h8

theorem processOpcodeRaw_ok (sec : String) (olds news : List RawChunk)
    (vm : VersionMap) (op : OpTag × Nat × Nat × Nat × Nat)
    (hb : op.2.2.1 ≤ olds.length ∧ op.2.2.2.2 ≤ news.length)
    (hwfo : ∀ c ∈ olds, c.chunk_id ≠ none ∧ c.content ≠ none)
    (hwfn : ∀ c ∈ news, c.chunk_id ≠ none ∧ c.content ≠ none) :
    ∃ l, processOpcodeRaw sec olds news vm op = Except.ok l := by
  obtain ⟨t, i1, i2, j1, j2⟩ := op
  simp only at hb
  cases t with
  | equal => exact ⟨[], rfl⟩
  | delete =>
    simp only [processOpcodeRaw]
    apply exceptMapM_ok_of_forall
    intro idx hidx
    rcases List.mem_range'.1 hidx with ⟨d, hd, hde⟩
    have hlt : idx < olds.length := by omega
    have hmem := getD_mem_of_lt olds idx hlt
    obtain ⟨hcid0, hcon0⟩ := hwfo _ hmem
    rcases Option.ne_none_iff_exists'.1 hcid0 with ⟨cid, hcid⟩
    rcases Option.ne_none_iff_exists'.1 hcon0 with ⟨con, hcon⟩
    rw [hcid, hcon]
    show ∃ y, (Except.ok cid >>= fun cid => Except.ok con >>= fun content => _) = Except.ok y
    rw [except_bind_ok, except_bind_ok]
    by_cases hmv : truthyOpt (vm_get vm cid) = true
    · rw [if_pos hmv]
      exact ⟨_, rfl⟩
    · rw [if_neg hmv]
      exact ⟨_, rfl⟩
  | insert =>
    simp only [processOpcodeRaw]
    have hall : ∃ parts, (List.range' j1 (j2 - j1)).mapM
        (fun idx => do
          let cid ← keyGet "chunk_id" (news.getD idx default).chunk_id
          if vm_has_value vm cid = true then pure []
          else do
            let content ← keyGet "content" (news.getD idx default).content
            pure [{ section_id := sec, chunk_id := cid,
                    change_type := ChangeType.added, old_content := "",
                    new_content := content, similarity_score := 1,
                    moved_to := none : Change }]) = Except.ok parts := by
      apply exceptMapM_ok_of_forall
      intro idx hidx
      rcases List.mem_range'.1 hidx with ⟨d, hd, hde⟩
      have hlt : idx < news.length := by omega
      have hmem := getD_mem_of_lt news idx hlt
      obtain ⟨hcid0, hcon0⟩ := hwfn _ hmem
      rcases Option.ne_none_iff_exists'.1 hcid0 with ⟨cid, hcid⟩
      rcases Option.ne_none_iff_exists'.1 hcon0 with ⟨con, hcon⟩
      rw [hcid, hcon]
      show ∃ y, (Except.ok cid >>= fun cid => _) = Except.ok y
      rw [except_bind_ok]
      by_cases hmv : vm_has_value vm cid = true
      · rw [if_pos hmv]
        exact ⟨_, rfl⟩
      · rw [if_neg hmv]
        show ∃ y, (Except.ok con >>= fun content => _) = Except.ok y
        rw [except_bind_ok]
        exact ⟨_, rfl⟩
    rcases hall with ⟨parts, hparts⟩
    rw [hparts, except_bind_ok]
    exact ⟨_, rfl⟩
  | replace =>
    simp only [processOpcodeRaw]
    apply exceptMapM_ok_of_forall
    intro k hk
    have hkr : k < min (i2 - i1) (j2 - j1) := List.mem_range.1 hk
    have hlto : i1 + k < olds.length := by omega
    have hltn : j1 + k < news.length := by omega
    obtain ⟨hcid1, hcon1⟩ := hwfo _ (getD_mem_of_lt olds _ hlto)
    obtain ⟨hcid2, hcon2⟩ := hwfn _ (getD_mem_of_lt news _ hltn)
    rcases Option.ne_none_iff_exists'.1 hcid1 with ⟨ocid, hocid⟩
    rcases Option.ne_none_iff_exists'.1 hcon1 with ⟨ocon, hocon⟩
    rcases Option.ne_none_iff_exists'.1 hcid2 with ⟨ncid, hncid⟩
    rcases Option.ne_none_iff_exists'.1 hcon2 with ⟨ncon, hncon⟩
    rw [hocid, hocon, hncid, hncon]
    show ∃ y, (Except.ok ocon >>= fun oc => Except.ok ncon >>= fun nc =>
      Except.ok ocid >>= fun ocid2 => Except.ok ncid >>= fun ncid2 => _) = Except.ok y
    rw [except_bind_ok, except_bind_ok, except_bind_ok, except_bind_ok]
    exact ⟨_, rfl⟩

theorem processSectionRaw_error (vm : VersionMap)
    (oldTagged newTagged : List (String × RawChunk)) (sec : String) (e : String)
    (h : processSectionRaw vm oldTagged newTagged sec = Except.error e) :
    (e = "chunk_id" ∨ e = "content") ∧
    ∃ c, (c ∈ oldTagged.map Prod.snd ∨ c ∈ newTagged.map Prod.snd) ∧
      rawField c e = none := by
  simp only [processSectionRaw] at h
  rcases except_bind_inv _ _ _ h with h1 | ⟨old_list, hol, h2⟩
  · rcases exceptMapM_error _ _ _ h1 with ⟨c, hc, hrc⟩
    obtain ⟨he, hn⟩ := rawContent_error _ _ hrc
    refine ⟨Or.inr he, c, Or.inl ?_, by rw [he]; simp [rawField, hn]⟩
    rcases List.mem_map.1 hc with ⟨p, hp, hpc⟩
    exact List.mem_map.2 ⟨p, (List.mem_filter.1 hp).1, hpc⟩
  · rcases except_bind_inv _ _ _ h2 with h3 | ⟨new_list, hnl, h4⟩
    · rcases exceptMapM_error _ _ _ h3 with ⟨c, hc, hrc⟩
      obtain ⟨he, hn⟩ := rawContent_error _ _ hrc
      refine ⟨Or.inr he, c, Or.inr ?_, by rw [he]; simp [rawField, hn]⟩
      rcases List.mem_map.1 hc with ⟨p, hp, hpc⟩
      exact List.mem_map.2 ⟨p, (List.mem_filter.1 hp).1, hpc⟩
    · rcases except_bind_inv _ _ _ h4 with h5 | ⟨runs, hruns, h6⟩
      · rcases exceptMapM_error _ _ _ h5 with ⟨op, hop, hpe⟩
        have hlo : old_list.length =
            ((oldTagged.filter (fun p => p.1 == sec)).map Prod.snd).length :=
          (exceptMapM_ok _ _ _ hol).2.1
        have hln : new_list.length =
            ((newTagged.filter (fun p => p.1 == sec)).map Prod.snd).length :=
          (exceptMapM_ok _ _ _ hnl).2.1
        have hbnd := opsTile_mem_bounds (get_opcodes_tile old_list new_list) op hop
        obtain ⟨hkey, c, hcm, hcf⟩ := processOpcodeRaw_error sec _ _ vm op e
          ⟨by omega, by omega⟩ hpe
        refine ⟨hkey, c, ?_, hcf⟩
        rcases hcm with hcm | hcm
        · left
          rcases List.mem_map.1 hcm with ⟨p, hp, hpc⟩
          exact List.mem_map.2 ⟨p, (List.mem_filter.1 hp).1, hpc⟩
        · right
          rcases List.mem_map.1 hcm with ⟨p, hp, hpc⟩
          exact List.mem_map.2 ⟨p, (List.mem_filter.1 hp).1, hpc⟩
      · cases h6

theorem processSectionRaw_ok (vm : VersionMap)
    (oldTagged newTagged : List (String × RawChunk)) (sec : String)
    (hwfo : ∀ c ∈ oldTagged.map Prod.snd, c.chunk_id ≠ none ∧ c.content ≠ none)
    (hwfn : ∀ c ∈ newTagged.map Prod.snd, c.chunk_id ≠ none ∧ c.content ≠ none) :
    ∃ l, processSectionRaw vm oldTagged newTagged sec = Except.ok l := by
  simp only [processSectionRaw]
  have hsubo : ∀ c ∈ (oldTagged.filter (fun p => p.1 == sec)).map Prod.snd,
      c.chunk_id ≠ none ∧ c.content ≠ none := by
    intro c hc
    rcases List.mem_map.1 hc with ⟨p, hp, hpc⟩
    exact hwfo c (List.mem_map.2 ⟨p, (List.mem_filter.1 hp).1, hpc⟩)
  have hsubn : ∀ c ∈ (newTagged.filter (fun p => p.1 == sec)).map Prod.snd,
      c.chunk_id ≠ none ∧ c.content ≠ none := by
    intro c hc
    rcases List.mem_map.1 hc with ⟨p, hp, hpc⟩
    exact hwfn c (List.mem_map.2 ⟨p, (List.mem_filter.1 hp).1, hpc⟩)
  rcases exceptMapM_ok_of_forall rawContent _
      (fun c hc => by
        rcases Option.ne_none_iff_exists'.1 (hsubo c hc).2 with ⟨v, hv⟩
        exact ⟨v, by simp [rawContent, keyGet, hv]⟩) with ⟨old_list, hol⟩
  rcases exceptMapM_ok_of_forall rawContent _
      (fun c hc => by
        rcases Option.ne_none_iff_exists'.1 (hsubn c hc).2 with ⟨v, hv⟩
        exact ⟨v, by simp [rawContent, keyGet, hv]⟩) with ⟨new_list, hnl⟩
  rw [hol, except_bind_ok, hnl, except_bind_ok]
  have hlo : old_list.length =
      ((oldTagged.filter (fun p => p.1 == sec)).map Prod.snd).length :=
    (exceptMapM_ok _ _ _ hol).2.1
  have hln : new_list.length =
      ((newTagged.filter (fun p => p.1 == sec)).map Prod.snd).length :=
    (exceptMapM_ok _ _ _ hnl).2.1
  rcases exceptMapM_ok_of_forall (processOpcodeRaw sec
      ((oldTagged.filter (fun p => p.1 == sec)).map Prod.snd)
      ((newTagged.filter (fun p => p.1 == sec)).map Prod.snd) vm)
      (get_opcodes old_list new_list)
      (fun op hop => by
        have hbnd := opsTile_mem_bounds (get_opcodes_tile old_list new_list) op hop
        exact processOpcodeRaw_ok sec _ _ vm op ⟨by omega, by omega⟩ hsubo hsubn)
    with ⟨runs, hruns⟩
  rw [hruns, except_bind_ok]
  exact ⟨_, rfl⟩

theorem detect_changes_raw_error (old_chunks new_chunks : List RawChunk)
    (vm : VersionMap) (e : String)
    (h : detect_changes_raw old_chunks new_chunks vm = Except.error e) :
    (e = "section_id" ∨ e = "chunk_id" ∨ e = "content") ∧
    ∃ c ∈ old_chunks ++ new_chunks, rawField c e = none := by
  simp only [detect_changes_raw] at h
  rcases except_bind_inv _ _ _ h with h1 | ⟨oldTagged, hot, h2⟩
  · rcases exceptMapM_error _ _ _ h1 with ⟨c, hc, hts⟩
    obtain ⟨he, hn⟩ := tagSection_error _ _ hts
    exact ⟨Or.inl he, c, List.mem_append_left _ hc,
      by rw [he]; simp [rawField, hn]⟩
  · rcases except_bind_inv _ _ _ h2 with h3 | ⟨newTagged, hnt, h4⟩
    · rcases exceptMapM_error _ _ _ h3 with ⟨c, hc, hts⟩
      obtain ⟨he, hn⟩ := tagSection_error _ _ hts
      exact ⟨Or.inl he, c, List.mem_append_right _ hc,
        by rw [he]; simp [rawField, hn]⟩
    · rcases except_bind_inv _ _ _ h4 with h5 | ⟨parts, hparts, h6⟩
      · rcases exceptMapM_error _ _ _ h5 with ⟨sec, _, hse⟩
        obtain ⟨hkey, c, hcm, hcf⟩ := processSectionRaw_error vm _ _ sec e hse
        refine ⟨Or.inr hkey, c, ?_, hcf⟩
        rcases hcm with hcm | hcm
        · rcases List.mem_map.1 hcm with ⟨p, hp, hpc⟩
          rcases (exceptMapM_ok _ _ _ hot).1 p hp with ⟨orig, horig, hts⟩
          have := (tagSection_ok _ _ hts).2
          exact List.mem_append_left _ (by rw [← hpc, this]; exact horig)
        · rcases List.mem_map.1 hcm with ⟨p, hp, hpc⟩
          rcases (exceptMapM_ok _ _ _ hnt).1 p hp with ⟨orig, horig, hts⟩
          have := (tagSection_ok _ _ hts).2
          exact List.mem_append_right _ (by rw [← hpc, this]; exact horig)
      · cases h6

theorem detect_changes_raw_ok (old_chunks new_chunks : List RawChunk)
    (vm : VersionMap)
    (hwf : ∀ c ∈ old_chunks ++ new_chunks,
      c.section_id ≠ none ∧ c.chunk_id ≠ none ∧ c.content ≠ none) :
    ∃ l, detect_changes_raw old_chunks new_chunks vm = Except.ok l := by
  simp only [detect_changes_raw]
  rcases exceptMapM_ok_of_forall tagSection old_chunks
      (fun c hc => by
        rcases Option.ne_none_iff_exists'.1
          (hwf c (List.mem_append_left _ hc)).1 with ⟨s, hs⟩
        exact ⟨(s, c), by simp [tagSection, keyGet, hs]⟩) with ⟨oldTagged, hot⟩
  rcases exceptMapM_ok_of_forall tagSection new_chunks
      (fun c hc => by
        rcases Option.ne_none_iff_exists'.1
          (hwf c (List.mem_append_right _ hc)).1 with ⟨s, hs⟩
        exact ⟨(s, c), by simp [tagSection, keyGet, hs]⟩) with ⟨newTagged, hnt⟩
  rw [hot, except_bind_ok, hnt, except_bind_ok]
  have hwo : ∀ c ∈ oldTagged.map Prod.snd, c.chunk_id ≠ none ∧ c.content ≠ none := by
    intro c hc
    rcases List.mem_map.1 hc with ⟨p, hp, hpc⟩
    rcases (exceptMapM_ok _ _ _ hot).1 p hp with ⟨orig, horig, hts⟩
    have h2 := (tagSection_ok _ _ hts).2
    rw [← hpc, h2]
    exact (hwf orig (List.mem_append_left _ horig)).2
  have hwn : ∀ c ∈ newTagged.map Prod.snd, c.chunk_id ≠ none ∧ c.content ≠ none := by
    intro c hc
    rcases List.mem_map.1 hc with ⟨p, hp, hpc⟩
    rcases (exceptMapM_ok _ _ _ hnt).1 p hp with ⟨orig, horig, hts⟩
    have h2 := (tagSection_ok _ _ hts).2
    rw [← hpc, h2]
    exact (hwf orig (List.mem_append_right _ horig)).2
  rcases exceptMapM_ok_of_forall (processSectionRaw vm oldTagged newTagged) _
      (fun sec _ => processSectionRaw_ok vm oldTagged newTagged sec hwo hwn)
    with ⟨parts, hparts⟩
  rw [hparts, except_bind_ok]
  exact ⟨_, rfl⟩

theorem detect_changes_raw_ok_wf (old_chunks new_chunks : List RawChunk)
    (vm : VersionMap) (l : List Change)
    (h : detect_changes_raw old_chunks new_chunks vm = Except.ok l) :
    ∀ c ∈ old_chunks ++ new_chunks, c.section_id ≠ none ∧ c.content ≠ none := by
  simp only [detect_changes_raw] at h
  rcases except_bind_ok_inv _ _ _ h with ⟨oldTagged, hot, h2⟩
  rcases except_bind_ok_inv _ _ _ h2 with ⟨newTagged, hnt, h4⟩
  rcases except_bind_ok_inv _ _ _ h4 with ⟨parts, hparts, _⟩
  intro c hc
  rcases List.mem_append.1 hc with hco | hcn
  · rcases (exceptMapM_ok _ _ _ hot).2.2 c hco with ⟨p, hp, hts⟩
    obtain ⟨hsid, hsnd⟩ := tagSection_ok _ _ hts
    refine ⟨by rw [hsid]; exact Option.some_ne_none _, ?_⟩
    have hsec : p.1 ∈ ((oldTagged.map Prod.fst ++ newTagged.map Prod.fst).dedup).mergeSort
        (fun s t => decide (s ≤ t)) := by
      rw [List.mem_mergeSort, List.mem_dedup]
      exact List.mem_append_left _ (List.mem_map_of_mem _ hp)
    rcases (exceptMapM_ok _ _ _ hparts).2.2 p.1 hsec with ⟨part, _, hpsec⟩
    simp only [processSectionRaw] at hpsec
    rcases except_bind_ok_inv _ _ _ hpsec with ⟨old_list, hol, _⟩
    have hcin : c ∈ (oldTagged.filter (fun q => q.1 == p.1)).map Prod.snd := by
      apply List.mem_map.2
      exact ⟨p, List.mem_filter.2 ⟨hp, by simp⟩, hsnd⟩
    rcases (exceptMapM_ok _ _ _ hol).2.2 c hcin with ⟨v, _, hrc⟩
    have := keyGet_ok _ _ _ hrc
    rw [this]
    exact Option.some_ne_none _
  · rcases (exceptMapM_ok _ _ _ hnt).2.2 c hcn with ⟨p, hp, hts⟩
    obtain ⟨hsid, hsnd⟩ := tagSection_ok _ _ hts
    refine ⟨by rw [hsid]; exact Option.some_ne_none _, ?_⟩
    have hsec : p.1 ∈ ((oldTagged.map Prod.fst ++ newTagged.map Prod.fst).dedup).mergeSort
        (fun s t => decide (s ≤ t)) := by
      rw [List.mem_mergeSort, List.mem_dedup]
      exact List.mem_append_right _ (List.mem_map_of_mem _ hp)
    rcases (exceptMapM_ok _ _ _ hparts).2.2 p.1 hsec with ⟨part, _, hpsec⟩
    simp only [processSectionRaw] at hpsec
    rcases except_bind_ok_inv _ _ _ hpsec with ⟨old_list, hol, hrest⟩
    rcases except_bind_ok_inv _ _ _ hrest with ⟨new_list, hnl, _⟩
    have hcin : c ∈ (newTagged.filter (fun q => q.1 == p.1)).map Prod.snd := by
      apply List.mem_map.2
      exact ⟨p, List.mem_filter.2 ⟨hp, by simp⟩, hsnd⟩
    rcases (exceptMapM_ok _ _ _ hnl).2.2 c hcin with ⟨v, _, hrc⟩
    have := keyGet_ok _ _ _ hrc
    rw [this]
    exact Option.some_ne_none _

/-- Counterexample to C6: a chunk record lacking `section_id` makes
`detect_changes` raise `KeyError("section_id")` — an error naming the
missing dict key, not a `MissingFieldError` naming the offending
chunk_id `"x"` (no such error class exists in the repository). -/
theorem c6_counterexample :
    detect_changes_raw [⟨none, some "x", none, some "y"⟩] [] [] =
      Except.error "section_id" ∧
    "section_id" ≠ "x" := by
  refine ⟨?_, by decide⟩
  with_unfolding_all rfl

/-- C6 amended.  On input containing a chunk without `section_id` or
`content`, `detect_changes` fails with a `KeyError` naming one of the
dict keys it subscripts (`section_id`, `chunk_id` or `content`) and that
key is genuinely missing from some input chunk; on well-formed input
(all three keys present on every chunk) it never fails. -/
theorem c6_missing_field_failure :
    (∀ (old_chunks new_chunks : List RawChunk) (vm : VersionMap),
      (∃ c ∈ old_chunks ++ new_chunks, c.section_id = none ∨ c.content = none) →
      ∃ e, detect_changes_raw old_chunks new_chunks vm = Except.error e ∧
        (e = "section_id" ∨ e = "chunk_id" ∨ e = "content") ∧
        ∃ c ∈ old_chunks ++ new_chunks, rawField c e = none) ∧
    (∀ (old_chunks new_chunks : List RawChunk) (vm : VersionMap),
      (∀ c ∈ old_chunks ++ new_chunks,
        c.section_id ≠ none ∧ c.chunk_id ≠ none ∧ c.content ≠ none) →
      ∃ l, detect_changes_raw old_chunks new_chunks vm = Except.ok l) := by
  constructor
  · intro old_chunks new_chunks vm hmal
    rcases hmal with ⟨c, hc, hmiss⟩
    cases hres : detect_changes_raw old_chunks new_chunks vm with
    | error e =>
      obtain ⟨hkey, hcc⟩ := detect_changes_raw_error _ _ _ _ hres
      exact ⟨e, rfl, hkey, hcc⟩
    | ok l =>
      exfalso
      obtain ⟨hs, hct⟩ := detect_changes_raw_ok_wf _ _ _ _ hres c hc
      rcases hmiss with hm | hm
      · exact hs hm
      · exact hct hm
  · intro old_chunks new_chunks vm hwf
    exact detect_changes_raw_ok _ _ _ hwf

/-- Witness for C6 amended: a malformed and a well-formed concrete run. -/
theorem c6_missing_field_failure_witness :
    (∃ e, detect_changes_raw [⟨none, some "x", none, some "y"⟩] [] [] =
        Except.error e ∧
      (e = "section_id" ∨ e = "chunk_id" ∨ e = "content") ∧
      ∃ c ∈ [(⟨none, some "x", none, some "y"⟩ : RawChunk)] ++ [],
        rawField c e = none) ∧
    (∃ l, detect_changes_raw [⟨some "1", some "x", none, some "y"⟩] [] [] =
        Except.ok l) := by
  constructor
  · exact c6_missing_field_failure.1 [⟨none, some "x", none, some "y"⟩] [] []
      ⟨⟨none, some "x", none, some "y"⟩, by simp, Or.inl rfl⟩
  · exact c6_missing_field_failure.2 [⟨some "1", some "x", none, some "y"⟩] [] []
      (by intro c hc; simp at hc; subst hc; exact ⟨by simp, by simp, by simp⟩)

/-! ## Claim C7: idempotent classification

Aligning a sequence against itself yields a single full-length match:
the best-match loop only ever records diagonal matches (an off-diagonal
chain can never strictly beat the diagonal one), and the extension loops
then stretch a diagonal match to the whole sequence. -/

theorem b2j_mem (b : List α) (x : α) (j : Nat) :
    j ∈ b2j b x ↔ isPopular b x = false ∧ j < b.length ∧ b.get? j = some x := by
  unfold b2j
  by_cases hp : isPopular b x
  · simp [hp]
  · simp only [if_neg hp, List.mem_filter, List.mem_range]
    constructor
    · intro ⟨h1, h2⟩
      exact ⟨by simpa using hp, h1, by simpa using h2⟩
    · intro ⟨_, h2, h3⟩
      exact ⟨h2, by simpa using h3⟩

theorem b2j_sorted (b : List α) (x : α) : (b2j b x).Sorted (· < ·) := by
  unfold b2j
  by_cases hp : isPopular b x
  · simp [hp, List.Sorted]
  · rw [if_neg hp]
    exact (List.pairwise_lt_range b.length).sublist (List.filter_sublist _)

theorem b2j_nodup (b : List α) (x : α) : (b2j b x).Nodup := by
  unfold b2j
  by_cases hp : isPopular b x
  · simp [hp]
  · rw [if_neg hp]
    exact (List.nodup_range b.length).filter _

theorem keys_nodup_val_unique (j : Nat) :
    ∀ (m : List (Nat × Nat)), (m.map Prod.fst).Nodup →
      ∀ v w, (j, v) ∈ m → (j, w) ∈ m → v = w := by
  intro m
  induction m with
  | nil => intro _ v w hv _; exact absurd hv (List.not_mem_nil _)
  | cons p ps ih =>
    intro hnd v w hv hw
    have hnd' := hnd
    rw [List.map_cons, List.nodup_cons] at hnd'
    rcases List.mem_cons.1 hv with hv1 | hv1 <;>
      rcases List.mem_cons.1 hw with hw1 | hw1
    · rw [← hv1] at hw1; exact (Prod.mk.injEq _ _ _ _ ▸ hw1).2.symm
    · exfalso
      have : j ∈ ps.map Prod.fst := List.mem_map.2 ⟨(j, w), hw1, rfl⟩
      rw [← hv1] at hnd'
      exact hnd'.1 this
    · exfalso
      have : j ∈ ps.map Prod.fst := List.mem_map.2 ⟨(j, v), hv1, rfl⟩
      rw [← hw1] at hnd'
      exact hnd'.1 this
    · exact ih hnd'.2 v w hv1 hw1

theorem mGet_of_mem_nodup (m : List (Nat × Nat)) (j v : Nat)
    (hmem : (j, v) ∈ m) (hnd : (m.map Prod.fst).Nodup) : mGet m j = v := by
  unfold mGet
  cases hfind : m.find? (fun p => p.1 == j) with
  | none =>
    exfalso
    have := List.find?_eq_none.1 hfind (j, v) hmem
    simp at this
  | some p =>
    have hp : p ∈ m := List.mem_of_find?_eq_some hfind
    have hx : p.1 = j := by simpa using List.find?_some hfind
    have hp2 : (j, p.2) ∈ m := by
      have : p = (j, p.2) := by
        rw [← hx]
      rw [← this]
      exact hp
    exact (keys_nodup_val_unique j m hnd p.2 v hp2 hmem)

theorem mGet_zero_of_not_mem (m : List (Nat × Nat)) (j : Nat)
    (h : ∀ p ∈ m, p.1 ≠ j) : mGet m j = 0 := by
  unfold mGet
  cases hfind : m.find? (fun p => p.1 == j) with
  | none => rfl
  | some p =>
    exfalso
    have hp : p ∈ m := List.mem_of_find?_eq_some hfind
    have hx : p.1 = j := by simpa using List.find?_some hfind
    exact h p hp hx

theorem flmInner_acc (m : List (Nat × Nat)) (bhi i : Nat) :
    ∀ (L : List Nat) (st : Nat × Nat × Nat) (acc : List (Nat × Nat)),
      (∀ j ∈ L, j < bhi) →
      (flmInner m 0 bhi i L st acc).2 =
        (L.reverse.map fun j => (j, (if j = 0 then 0 else mGet m (j - 1)) + 1))
          ++ acc := by
  intro L
  induction L with
  | nil => intro st acc _; simp [flmInner]
  | cons j js ih =>
    intro st acc hL
    have h1 : ¬ j < 0 := by omega
    have h2 : ¬ bhi ≤ j := by
      have := hL j (List.mem_cons_self j js)
      omega
    rw [flmInner]
    rw [if_neg h1, if_neg h2]
    rw [ih _ _ (fun w hw => hL w (List.mem_cons_of_mem j hw))]
    simp

theorem getD_eq_of_get? (a : List α) (j : Nat) (x : α) (h : a.get? j = some x) :
    a.getD j default = x := by
  rw [List.getD_eq_getElem?_getD, ← List.get?_eq_getElem?, h]
  rfl

theorem mem_b2j_self (a : List α) (x : α) (j : Nat) (h : j ∈ b2j a x) :
    j ∈ b2j a (a.getD j default) := by
  obtain ⟨_, _, hget⟩ := (b2j_mem a x j).1 h
  rw [getD_eq_of_get? a j x hget]
  exact h

theorem self_mem_b2j (a : List α) (i : Nat) (hi : i < a.length)
    (hpop : isPopular a (a.getD i default) = false) :
    i ∈ b2j a (a.getD i default) := by
  refine (b2j_mem a _ i).2 ⟨hpop, hi, ?_⟩
  rw [List.get?_eq_getElem?, List.getElem?_eq_getElem hi, List.getD_eq_getElem?_getD,
    List.getElem?_eq_getElem hi]
  rfl

theorem diagChain_succ_of_mem (a : List α) (j : Nat)
    (h : j ∈ b2j a (a.getD j default)) :
    diagChain a j = (if j = 0 then 0 else diagChain a (j - 1)) + 1 := by
  cases j with
  | zero => simp only [diagChain, if_pos h]; simp
  | succ t => simp only [diagChain, if_pos h]; simp

theorem diagChain_zero_of_not_mem (a : List α) (j : Nat)
    (h : j ∉ b2j a (a.getD j default)) : diagChain a j = 0 := by
  cases j with
  | zero => simp only [diagChain, if_neg h]
  | succ t => simp only [diagChain, if_neg h]

theorem chain_step_le_diag (a : List α) (m : List (Nat × Nat))
    (hM1 : ∀ p ∈ m, p.2 ≤ diagChain a p.1) (j : Nat)
    (hvj : j ∈ b2j a (a.getD j default)) :
    (if j = 0 then 0 else mGet m (j - 1)) + 1 ≤ diagChain a j := by
  rw [diagChain_succ_of_mem a j hvj]
  by_cases hj0 : j = 0
  · simp [hj0]
  · rw [if_neg hj0, if_neg hj0]
    have := mGet_le m (j - 1) (diagChain a (j - 1))
      (fun p hp hpx => by rw [← hpx]; exact hM1 p hp)
    omega

theorem chain_step_le_top (a : List α) (i : Nat) (m : List (Nat × Nat))
    (hM2 : ∀ p ∈ m, p.2 ≤ (if i = 0 then 0 else diagChain a (i - 1))) (j : Nat) :
    (if j = 0 then 0 else mGet m (j - 1)) + 1 ≤
      (if i = 0 then 0 else diagChain a (i - 1)) + 1 := by
  by_cases hj0 : j = 0
  · simp [hj0]
  · rw [if_neg hj0]
    have := mGet_le m (j - 1) (if i = 0 then 0 else diagChain a (i - 1))
      (fun p hp _ => hM2 p hp)
    omega

theorem flmInner_best (a : List α) (i : Nat) (hi : i < a.length)
    (m : List (Nat × Nat))
    (hM1 : ∀ p ∈ m, p.2 ≤ diagChain a p.1)
    (hM2 : ∀ p ∈ m, p.2 ≤ (if i = 0 then 0 else diagChain a (i - 1)))
    (hM3 : mGet m (i - 1) = (if i = 0 then 0 else diagChain a (i - 1))) :
    ∀ (L : List Nat), (∀ j ∈ L, j ∈ b2j a (a.getD i default)) →
      L.Pairwise (· < ·) →
      ∀ (st : Nat × Nat × Nat) (acc : List (Nat × Nat)),
        st.1 = st.2.1 →
        (∀ q, q < i → diagChain a q ≤ st.2.2) →
        (i ∈ L ∨ diagChain a i ≤ st.2.2) →
        (flmInner m 0 a.length i L st acc).1.1
            = (flmInner m 0 a.length i L st acc).1.2.1 ∧
        (∀ q, q ≤ i → diagChain a q ≤ (flmInner m 0 a.length i L st acc).1.2.2) := by
  intro L
  induction L with
  | nil =>
    intro _ _ st acc hS1 hS2 hL3
    have hdi : diagChain a i ≤ st.2.2 := by
      rcases hL3 with h | h
      · exact absurd h (List.not_mem_nil i)
      · exact h
    refine ⟨by simpa [flmInner] using hS1, ?_⟩
    intro q hq
    simp only [flmInner]
    rcases Nat.lt_or_ge q i with h | h
    · exact hS2 q h
    · have : q = i := by omega
      rw [this]
      exact hdi
  | cons j js ih =>
    intro hL hsort st acc hS1 hS2 hL3
    have hmem := hL j (List.mem_cons_self j js)
    obtain ⟨hpop, hjlt, hget⟩ := (b2j_mem a _ j).1 hmem
    have hvi : i ∈ b2j a (a.getD i default) := self_mem_b2j a i hi hpop
    have hdi : diagChain a i = (if i = 0 then 0 else diagChain a (i - 1)) + 1 :=
      diagChain_succ_of_mem a i hvi
    have hvj : j ∈ b2j a (a.getD j default) := mem_b2j_self a _ j hmem
    have hkA : (if j = 0 then 0 else mGet m (j - 1)) + 1 ≤ diagChain a j :=
      chain_step_le_diag a m hM1 j hvj
    have hkB : (if j = 0 then 0 else mGet m (j - 1)) + 1 ≤ diagChain a i := by
      rw [hdi]
      exact chain_step_le_top a i m hM2 j
    set k := (if j = 0 then 0 else mGet m (j - 1)) + 1 with hkdef
    have hg1 : ¬ j < 0 := by omega
    have hg2 : ¬ a.length ≤ j := by omega
    have hrec : flmInner m 0 a.length i (j :: js) st acc =
        flmInner m 0 a.length i js
          (if st.2.2 < k then (i + 1 - k, j + 1 - k, k) else st)
          ((j, k) :: acc) := by
      conv_lhs => rw [flmInner]
      simp [hg1, hg2, hkdef]
    have hLtail : ∀ w ∈ js, w ∈ b2j a (a.getD i default) :=
      fun w hw => hL w (List.mem_cons_of_mem j hw)
    have hsort' := List.pairwise_cons.1 hsort
    rw [hrec]
    rcases Nat.lt_trichotomy j i with hji | hji | hji
    · have hkle : k ≤ st.2.2 := le_trans hkA (hS2 j hji)
      rw [if_neg (by omega : ¬ st.2.2 < k)]
      refine ih hLtail hsort'.2 st _ hS1 hS2 ?_
      rcases hL3 with h | h
      · rcases List.mem_cons.1 h with h1 | h1
        · omega
        · exact Or.inl h1
      · exact Or.inr h
    · have hk_eq : k = diagChain a i := by
        rw [hkdef, hdi]
        by_cases h0 : i = 0
        · have hj0 : j = 0 := by omega
          simp [hj0, h0]
        · have hj0 : j ≠ 0 := by omega
          rw [if_neg hj0, if_neg h0, hji]
          rw [hM3, if_neg h0]
      by_cases hlt : st.2.2 < k
      · rw [if_pos hlt]
        refine ih hLtail hsort'.2 _ _ (by simp only; omega) ?_ ?_
        · intro q hq
          have := hS2 q hq
          simp only
          omega
        · refine Or.inr ?_
          simp only
          omega
      · rw [if_neg hlt]
        exact ih hLtail hsort'.2 st _ hS1 hS2 (Or.inr (by omega))
    · have hnotin : i ∉ j :: js := by
        intro hmem'
        rcases List.mem_cons.1 hmem' with h1 | h1
        · omega
        · have := hsort'.1 i h1
          omega
      have hbs : diagChain a i ≤ st.2.2 := by
        rcases hL3 with h | h
        · exact absurd h hnotin
        · exact h
      have hkle : k ≤ st.2.2 := le_trans hkB hbs
      rw [if_neg (by omega : ¬ st.2.2 < k)]
      exact ih hLtail hsort'.2 st _ hS1 hS2 (Or.inr hbs)

theorem flmOuter_diag (a : List α) :
    ∀ (cnt i : Nat) (st : Nat × Nat × Nat) (m : List (Nat × Nat)),
      i + cnt = a.length →
      (∀ p ∈ m, p.2 ≤ diagChain a p.1) →
      (∀ p ∈ m, p.2 ≤ (if i = 0 then 0 else diagChain a (i - 1))) →
      mGet m (i - 1) = (if i = 0 then 0 else diagChain a (i - 1)) →
      st.1 = st.2.1 →
      (∀ q, q < i → diagChain a q ≤ st.2.2) →
      (flmOuter a a 0 a.length (List.range' i cnt) st m).1
        = (flmOuter a a 0 a.length (List.range' i cnt) st m).2.1 := by
  intro cnt
  induction cnt with
  | zero =>
    intro i st m _ _ _ _ hS1 _
    simpa [flmOuter] using hS1
  | succ cnt ih =>
    intro i st m hlen hM1 hM2 hM3 hS1 hS2
    have hi : i < a.length := by omega
    rw [List.range'_succ]
    simp only [flmOuter]
    by_cases hpop : isPopular a (a.getD i default) = true
    · have hb2j : b2j a (a.getD i default) = [] := by
        unfold b2j
        rw [if_pos hpop]
      have hdi0 : diagChain a i = 0 := by
        refine diagChain_zero_of_not_mem a i ?_
        rw [hb2j]
        exact List.not_mem_nil i
      rw [hb2j]
      simp only [flmInner]
      refine ih (i + 1) st [] (by omega) ?_ ?_ ?_ hS1 ?_
      · intro p hp
        exact absurd hp (List.not_mem_nil p)
      · intro p hp
        exact absurd hp (List.not_mem_nil p)
      · rw [if_neg (Nat.succ_ne_zero i), Nat.add_sub_cancel, hdi0]
        rfl
      · intro q hq
        rcases Nat.lt_or_ge q i with h | h
        · exact hS2 q h
        · have : q = i := by omega
          rw [this, hdi0]
          exact Nat.zero_le _
    · have hpop' : isPopular a (a.getD i default) = false := by
        simpa using hpop
      have hvi : i ∈ b2j a (a.getD i default) := self_mem_b2j a i hi hpop'
      have hdi : diagChain a i = (if i = 0 then 0 else diagChain a (i - 1)) + 1 :=
        diagChain_succ_of_mem a i hvi
      have hbest := flmInner_best a i hi m hM1 hM2 hM3 (b2j a (a.getD i default))
        (fun _ h => h) (b2j_sorted a _) st [] hS1 hS2 (Or.inl hvi)
      have hacc := flmInner_acc m a.length i (b2j a (a.getD i default)) st []
        (fun j hj => ((b2j_mem a _ j).1 hj).2.1)
      set r := flmInner m 0 a.length i (b2j a (a.getD i default)) st [] with hrdef
      have hM1' : ∀ p ∈ r.2, p.2 ≤ diagChain a p.1 := by
        intro p hp
        rw [hacc, List.append_nil] at hp
        obtain ⟨j, hj, hpj⟩ := List.mem_map.1 hp
        have hjL : j ∈ b2j a (a.getD i default) := List.mem_reverse.1 hj
        rw [← hpj]
        exact chain_step_le_diag a m hM1 j (mem_b2j_self a _ j hjL)
      have hM2' : ∀ p ∈ r.2, p.2 ≤ (if i + 1 = 0 then 0 else diagChain a (i + 1 - 1)) := by
        rw [if_neg (Nat.succ_ne_zero i), Nat.add_sub_cancel]
        intro p hp
        rw [hacc, List.append_nil] at hp
        obtain ⟨j, hj, hpj⟩ := List.mem_map.1 hp
        rw [← hpj, hdi]
        exact chain_step_le_top a i m hM2 j
      have hM3' : mGet r.2 (i + 1 - 1) = (if i + 1 = 0 then 0 else diagChain a (i + 1 - 1)) := by
        rw [if_neg (Nat.succ_ne_zero i), Nat.add_sub_cancel]
        have hkeys : r.2.map Prod.fst = (b2j a (a.getD i default)).reverse := by
          rw [hacc, List.append_nil, List.map_map]
          have : (Prod.fst ∘ fun j => (j, (if j = 0 then 0 else mGet m (j - 1)) + 1))
              = id := by
            funext j
            rfl
          rw [this, List.map_id]
        have hnd : (r.2.map Prod.fst).Nodup := by
          rw [hkeys]
          exact List.nodup_reverse.2 (b2j_nodup a _)
        have hmemr : (i, (if i = 0 then 0 else mGet m (i - 1)) + 1) ∈ r.2 := by
          rw [hacc, List.append_nil]
          exact List.mem_map.2 ⟨i, List.mem_reverse.2 hvi, rfl⟩
        rw [mGet_of_mem_nodup r.2 i _ hmemr hnd, hdi]
        by_cases h0 : i = 0
        · rw [if_pos h0, if_pos h0]
        · rw [if_neg h0, if_neg h0, hM3, if_neg h0]
      have hS2' : ∀ q, q < i + 1 → diagChain a q ≤ r.1.2.2 := by
        intro q hq
        exact hbest.2 q (by omega)
      exact ih (i + 1) r.1 r.2 (by omega) hM1' hM2' hM3' hbest.1 hS2'

theorem extLeft_diag (a : List α) :
    ∀ (fuel t bs : Nat), t ≤ fuel →
      extLeft a a 0 0 fuel (t, t, bs) = (0, 0, bs + t) := by
  intro fuel
  induction fuel with
  | zero =>
    intro t bs ht
    have : t = 0 := by omega
    rw [this]
    rfl
  | succ fuel ih =>
    intro t bs ht
    cases t with
    | zero =>
      rw [extLeft]
      rw [if_neg (by omega), Nat.add_zero]
    | succ u =>
      rw [extLeft]
      rw [if_pos ⟨by omega, by omega, rfl⟩]
      have := ih u (bs + 1) (by omega)
      simp only [Nat.add_sub_cancel] at this ⊢
      rw [this]
      have : bs + 1 + u = bs + (u + 1) := by omega
      rw [this]

theorem extRight_diag (a : List α) :
    ∀ (fuel s : Nat), s ≤ a.length → a.length - s ≤ fuel →
      extRight a a a.length a.length fuel (0, 0, s) = (0, 0, a.length) := by
  intro fuel
  induction fuel with
  | zero =>
    intro s hs1 hs2
    have : s = a.length := by omega
    rw [this]
    rfl
  | succ fuel ih =>
    intro s hs1 hs2
    rcases Nat.lt_or_ge s a.length with h | h
    · rw [extRight]
      rw [if_pos ⟨by omega, by omega, rfl⟩]
      exact ih (s + 1) (by omega) (by omega)
    · have : s = a.length := by omega
      rw [this, extRight]
      rw [if_neg (by omega)]

/-- Matching a sequence against itself finds the single full-length block
`(0, 0, len)`. -/
theorem flm_self (a : List α) :
    find_longest_match a a 0 a.length 0 a.length = (0, 0, a.length) := by
  simp only [find_longest_match, Nat.sub_zero]
  set p := flmOuter a a 0 a.length (List.range' 0 a.length) (0, 0, 0) [] with hpdef
  have hS1 : p.1 = p.2.1 := by
    refine flmOuter_diag a a.length 0 (0, 0, 0) [] (by omega) ?_ ?_ rfl rfl ?_
    · intro q hq
      exact absurd hq (List.not_mem_nil q)
    · intro q hq
      exact absurd hq (List.not_mem_nil q)
    · intro q hq
      omega
  have hMB : MatchBounds 0 a.length 0 a.length p := by
    refine flmOuter_inv a a 0 a.length 0 a.length a.length 0 (0, 0, 0) []
      (by omega) (by omega) ⟨by omega, by simp, by omega, by simp⟩ ?_
    intro q hq
    exact absurd hq (List.not_mem_nil q)
  obtain ⟨t, tj, bs⟩ := p
  simp only at hS1
  rw [← hS1]
  obtain ⟨_, hb1, _, _⟩ := hMB
  simp only at hb1
  rw [extLeft_diag a t t bs (le_refl t)]
  exact extRight_diag a a.length (bs + t) (by omega) (by omega)

theorem matchingBlocks_self (a : List α) (hne : a ≠ []) :
    matchingBlocksAux a a (a.length + a.length) 0 a.length 0 a.length
      = [(0, 0, a.length)] := by
  have hn : 0 < a.length := List.length_pos.2 hne
  obtain ⟨f, hf⟩ : ∃ f, a.length + a.length = f + 1 :=
    ⟨a.length + a.length - 1, by omega⟩
  have hne0 : a.length ≠ 0 := by omega
  rw [hf]
  rw [matchingBlocksAux]
  simp [flm_self, hne0]

theorem get_matching_blocks_self (a : List α) (hne : a ≠ []) :
    get_matching_blocks a a = [(0, 0, a.length), (a.length, a.length, 0)] := by
  have hn : 0 < a.length := List.length_pos.2 hne
  unfold get_matching_blocks
  rw [matchingBlocks_self a hne]
  rw [mergeBlocksAux]
  rw [if_pos ⟨rfl, rfl⟩]
  rw [mergeBlocksAux]
  rw [if_pos (by omega : 0 + a.length ≠ 0)]
  simp

/-- Diffing a sequence against itself yields a single `equal` opcode (or
no opcodes at all when the sequence is empty). -/
theorem get_opcodes_self (a : List α) :
    get_opcodes a a =
      if a.length = 0 then [] else [(OpTag.equal, 0, a.length, 0, a.length)] := by
  by_cases h : a.length = 0
  · have ha : a = [] := List.length_eq_zero.1 h
    subst ha
    rw [if_pos h]
    rfl
  · rw [if_neg h]
    have hne : a ≠ [] := fun he => h (by rw [he]; rfl)
    unfold get_opcodes
    rw [get_matching_blocks_self a hne]
    rw [opcodesFromBlocks]
    rw [if_neg (by omega : ¬ ((0:Nat) < 0 ∧ (0:Nat) < 0))]
    rw [if_neg (by omega : ¬ (0:Nat) < 0)]
    rw [if_neg (by omega : ¬ (0:Nat) < 0)]
    rw [if_pos (by omega : a.length ≠ 0)]
    rw [opcodesFromBlocks]
    rw [if_neg (by omega : ¬ (0 + a.length < a.length ∧ 0 + a.length < a.length))]
    rw [if_neg (by omega : ¬ 0 + a.length < a.length)]
    rw [if_neg (by omega : ¬ 0 + a.length < a.length)]
    rw [if_neg (by omega : ¬ (0:Nat) ≠ 0)]
    simp [opcodesFromBlocks]

/-- **C7** (idempotent classification): running the detector on two
identical chunk lists produces no Change records at all — every section
diffs against itself into a single `equal` opcode (or none), and the
`equal` branch emits nothing, whatever the version map contains. -/
theorem c7_idempotent_classification (chunks : List Chunk) (vm : VersionMap) :
    detect_changes chunks chunks vm = [] := by
  unfold detect_changes
  rw [List.flatMap_eq_nil_iff]
  intro sec _
  simp only
  rw [get_opcodes_self]
  by_cases h :
      ((chunks.filter (fun c => c.section_id == sec)).map (fun c => c.content)).length = 0
  · rw [if_pos h]
    rfl
  · rw [if_neg h]
    simp [processOpcode]

/-! ## Claim C1: coverage accounting

Counting how often a chunk id is the old-side (resp. new-side) subject of
an emitted Change record. -/

theorem countP_flatMap_sum {β γ : Type} (l : List β) (f : β → List γ) (p : γ → Bool) :
    (l.flatMap f).countP p = (l.map (fun x => (f x).countP p)).sum := by
  induction l with
  | nil => rfl
  | cons x xs ih => rw [List.flatMap_cons, List.countP_append, List.map_cons,
      List.sum_cons, ih]

theorem sum_map_add_nat {β : Type} (l : List β) (f g : β → Nat) :
    (l.map (fun x => f x + g x)).sum = (l.map f).sum + (l.map g).sum := by
  induction l with
  | nil => rfl
  | cons x xs ih =>
    simp only [List.map_cons, List.sum_cons, ih]
    omega

theorem countP_filterMap_le {β γ : Type} (l : List β) (g : β → Option γ)
    (p : γ → Bool) (q : β → Bool)
    (h : ∀ x ∈ l, ∀ y, g x = some y → p y → q x) :
    (l.filterMap g).countP p ≤ l.countP q := by
  induction l with
  | nil => simp
  | cons x xs ih =>
    have ihx := ih (fun w hw => h w (List.mem_cons_of_mem x hw))
    cases hg : g x with
    | none =>
      rw [List.filterMap_cons_none hg, List.countP_cons]
      omega
    | some y =>
      rw [List.filterMap_cons_some hg, List.countP_cons, List.countP_cons]
      by_cases hp : p y
      · have hq : q x := h x (List.mem_cons_self x xs) y hg hp
        rw [if_pos hp, if_pos hq]
        omega
      · rw [if_neg hp]
        omega

theorem countP_le_one_of_unique {β : Type} (l : List β) (p : β → Bool)
    (hnd : l.Nodup) (h : ∀ x ∈ l, ∀ y ∈ l, p x → p y → x = y) :
    l.countP p ≤ 1 := by
  induction l with
  | nil => simp
  | cons x xs ih =>
    rw [List.countP_cons]
    have hnd' := List.nodup_cons.1 hnd
    by_cases hp : p x
    · have hzero : xs.countP p = 0 := by
        rw [List.countP_eq_zero]
        intro y hy hpy
        have := h y (List.mem_cons_of_mem x hy) x (List.mem_cons_self x xs) hpy hp
        rw [this] at hy
        exact hnd'.1 hy
      rw [hzero]
      simp [hp]
    · have := ih hnd'.2 (fun w hw z hz => h w (List.mem_cons_of_mem x hw)
        z (List.mem_cons_of_mem x hz))
      simpa [hp] using this

theorem sum_indicator_eq_countP {β : Type} (l : List β) (q : β → Bool) :
    (l.map (fun x => if q x then 1 else 0)).sum = l.countP q := by
  induction l with
  | nil => rfl
  | cons x xs ih =>
    rw [List.map_cons, List.sum_cons, ih, List.countP_cons]
    omega

theorem countP_range_getD {β : Type} [Inhabited β] (l : List β) (p : β → Bool) :
    (List.range l.length).countP (fun t => p (l.getD t default)) = l.countP p := by
  induction l with
  | nil => rfl
  | cons c l' ih =>
    rw [List.length_cons, List.range_succ_eq_map, List.countP_cons, List.countP_map]
    have he : ∀ t ∈ List.range l'.length,
        ((fun t => p ((c :: l').getD t default)) ∘ Nat.succ) t = true
          ↔ (fun t => p (l'.getD t default)) t = true := by
      intro t _
      rfl
    rw [List.countP_congr he, ih, List.countP_cons]
    have : p ((c :: l').getD 0 default) = p c := rfl
    rw [this]

theorem range'_shift_countP (s n : Nat) (q : Nat → Bool) :
    (List.range' s n).countP q = (List.range n).countP (fun k => q (s + k)) := by
  have hr : List.range' s n = (List.range n).map (fun x => s + x) := by
    rw [List.range_eq_range' n, List.map_add_range' s 0 n 1]
    simp
  rw [hr, List.countP_map]
  rfl

theorem arrow_prefix_eq :
    ∀ (u v w : List Char), '→' ∉ u → '→' ∉ v →
      (u ++ ['→']) <+: (v ++ '→' :: w) → u = v := by
  intro u
  induction u with
  | nil =>
    intro v w _ hv hp
    cases v with
    | nil => rfl
    | cons c v' =>
      exfalso
      obtain ⟨t, ht⟩ := hp
      have : c = '→' := by
        have := congrArg (fun l => l.head?) ht
        simpa using this.symm
      rw [this] at hv
      exact hv (List.mem_cons_self _ _)
  | cons c u' ih =>
    intro v w hu hv hp
    cases v with
    | nil =>
      exfalso
      obtain ⟨t, ht⟩ := hp
      have : c = '→' := by
        have := congrArg (fun l => l.head?) ht
        simpa using this
      rw [this] at hu
      exact hu (List.mem_cons_self _ _)
    | cons d v' =>
      obtain ⟨t, ht⟩ := hp
      simp only [List.cons_append] at ht
      have hcd : c = d := by
        have := congrArg (fun l => l.head?) ht
        simpa using this
      have htail : (u' ++ ['→']) <+: (v' ++ '→' :: w) := by
        refine ⟨t, ?_⟩
        have := congrArg List.tail ht
        simpa using this
      have := ih v' w (fun h => hu (List.mem_cons_of_mem c h))
        (fun h => hv (List.mem_cons_of_mem d h)) htail
      rw [hcd, this]

theorem arrow_suffix_eq (u v w : List Char) (hu : '→' ∉ u) (hw : '→' ∉ w)
    (hs : ('→' :: u) <:+ (v ++ '→' :: w)) : u = w := by
  have hrev0 : ('→' :: u).reverse <+: (v ++ '→' :: w).reverse :=
    List.reverse_prefix.mpr hs
  have hrev : (u.reverse ++ ['→']) <+: (w.reverse ++ '→' :: v.reverse) := by
    simpa [List.reverse_cons, List.reverse_append, List.append_assoc] using hrev0
  have := arrow_prefix_eq u.reverse w.reverse v.reverse
    (fun h => hu (List.mem_reverse.1 h)) (fun h => hw (List.mem_reverse.1 h)) hrev
  have := congrArg List.reverse this
  simpa using this

theorem nodup_getD_inj {β γ : Type} [Inhabited β] (f : β → γ) (l : List β)
    (hnd : (l.map f).Nodup) (t u : Nat) (ht : t < l.length) (hu : u < l.length)
    (he : f (l.getD t default) = f (l.getD u default)) : t = u := by
  have ht' : t < (l.map f).length := by simpa using ht
  have hu' : u < (l.map f).length := by simpa using hu
  have e1 : l.getD t default = l.get ⟨t, ht⟩ := by
    rw [List.getD_eq_getElem?_getD, List.getElem?_eq_getElem ht]
    rfl
  have e2 : l.getD u default = l.get ⟨u, hu⟩ := by
    rw [List.getD_eq_getElem?_getD, List.getElem?_eq_getElem hu]
    rfl
  have h1 : (l.map f).get ⟨t, ht'⟩ = (l.map f).get ⟨u, hu'⟩ := by
    rw [List.get_map, List.get_map]
    rw [← e1, ← e2] <;> exact he
  have := (List.Nodup.get_inj_iff hnd).1 h1
  simpa using this

theorem processDelete_cover_old (sec : String) (olds : List Chunk) (vm : VersionMap)
    (i1 i2 : Nat) (X : String) :
    (processDelete sec olds vm i1 i2).countP (fun r => coversOldSide r X)
      = (List.range' i1 (i2 - i1)).countP
          (fun t => (olds.getD t default).chunk_id == X) := by
  unfold processDelete
  rw [List.countP_map]
  refine List.countP_congr ?_
  intro t _
  simp only [Function.comp]
  by_cases h : truthyOpt (vm_get vm (olds.getD t default).chunk_id)
  · simp only [List.getD_eq_getElem?_getD] at h ⊢
    simp [h, coversOldSide]
  · simp only [List.getD_eq_getElem?_getD] at h ⊢
    simp [h, coversOldSide]

theorem processInsert_cover_old (sec : String) (news : List Chunk) (vm : VersionMap)
    (j1 j2 : Nat) (X : String) :
    (processInsert sec news vm j1 j2).countP (fun r => coversOldSide r X) = 0 := by
  rw [List.countP_eq_zero]
  intro r hr
  unfold processInsert at hr
  obtain ⟨idx, _, hsome⟩ := List.mem_filterMap.1 hr
  simp at hsome
  rw [← hsome.2]
  simp [coversOldSide]

theorem processReplace_cover_old (sec : String) (olds news : List Chunk)
    (i1 i2 j1 j2 : Nat) (X : String)
    (hX : '→' ∉ X.data)
    (holds : ∀ c ∈ olds, '→' ∉ c.chunk_id.data)
    (hi2 : i2 ≤ olds.length) :
    (processReplace sec olds news i1 i2 j1 j2).countP (fun r => coversOldSide r X)
      ≤ (List.range' i1 (i2 - i1)).countP
          (fun t => (olds.getD t default).chunk_id == X) := by
  unfold processReplace
  rw [List.countP_map]
  have h1 : (List.range (min (i2 - i1) (j2 - j1))).countP
        ((fun r => coversOldSide r X) ∘ fun k =>
          { section_id := sec,
            chunk_id := (olds.getD (i1 + k) default).chunk_id ++ "→"
              ++ (news.getD (j1 + k) default).chunk_id,
            change_type := ChangeType.modified,
            old_content := (olds.getD (i1 + k) default).content,
            new_content := (news.getD (j1 + k) default).content,
            similarity_score := compute_similarity (olds.getD (i1 + k) default).content
              (news.getD (j1 + k) default).content,
            moved_to := none })
      ≤ (List.range (min (i2 - i1) (j2 - j1))).countP
          (fun k => (olds.getD (i1 + k) default).chunk_id == X) := by
    refine List.countP_mono_left ?_
    intro k hk hcov
    have hklt : i1 + k < olds.length := by
      have := List.mem_range.1 hk
      omega
    have hmem : olds.getD (i1 + k) default ∈ olds := getD_mem_of_lt olds _ hklt
    have harr_old : '→' ∉ (olds.getD (i1 + k) default).chunk_id.data := holds _ hmem
    simp only [Function.comp, coversOldSide] at hcov
    simp only [Bool.or_eq_true, Bool.and_eq_true] at hcov
    rcases hcov with hcov | hcov
    · simp at hcov
    · have hpref := List.isPrefixOf_iff_prefix.1 hcov.2
      have hpre : (X.data ++ ['→']) <+:
          ((olds.getD (i1 + k) default).chunk_id.data
            ++ '→' :: (news.getD (j1 + k) default).chunk_id.data) := by
        simpa [String.data_append, List.append_assoc] using hpref
      have heq := arrow_prefix_eq X.data _ _ hX harr_old hpre
      have hXeq : X = (olds.getD (i1 + k) default).chunk_id := String.ext heq
      rw [List.getD_eq_getElem?_getD] at hXeq
      simp [hXeq]
  refine le_trans h1 ?_
  refine le_trans ((List.range_sublist.2 (min_le_left _ _)).countP_le _) ?_
  rw [range'_shift_countP]

theorem processOpcode_cover_old (sec : String) (olds news : List Chunk)
    (vm : VersionMap) (X : String) (hX : '→' ∉ X.data)
    (holds : ∀ c ∈ olds, '→' ∉ c.chunk_id.data)
    (tag : OpTag) (i1 i2 j1 j2 : Nat) (hi2 : i2 ≤ olds.length) :
    (processOpcode sec olds news vm (tag, i1, i2, j1, j2)).countP
        (fun r => coversOldSide r X)
      ≤ (List.range' i1 (i2 - i1)).countP
          (fun t => (olds.getD t default).chunk_id == X) := by
  cases tag with
  | equal => simp [processOpcode]
  | delete => exact le_of_eq (processDelete_cover_old sec olds vm i1 i2 X)
  | insert =>
    have := processInsert_cover_old sec news vm j1 j2 X
    show (processInsert sec news vm j1 j2).countP (fun r => coversOldSide r X) ≤ _
    rw [this]
    exact Nat.zero_le _
  | replace => exact processReplace_cover_old sec olds news i1 i2 j1 j2 X hX holds hi2

theorem opsList_cover_old (sec : String) (olds news : List Chunk) (vm : VersionMap)
    (X : String) (hX : '→' ∉ X.data)
    (holds : ∀ c ∈ olds, '→' ∉ c.chunk_id.data) :
    ∀ (ops : List (OpTag × Nat × Nat × Nat × Nat)) (i j : Nat),
      OpsTile i j olds.length news.length ops →
      (ops.flatMap (processOpcode sec olds news vm)).countP
          (fun r => coversOldSide r X)
        ≤ (List.range' i (olds.length - i)).countP
            (fun t => (olds.getD t default).chunk_id == X) := by
  intro ops
  induction ops with
  | nil =>
    intro i j _
    simp
  | cons op rest ih =>
    intro i j htile
    obtain ⟨tag, i1, i2, j1, j2⟩ := op
    obtain ⟨h1, h2, h3, h4, htrest⟩ := htile
    subst h1
    subst h2
    have hi2 : i2 ≤ olds.length := (opsTile_le htrest).1
    rw [List.flatMap_cons, List.countP_append]
    have hop := processOpcode_cover_old sec olds news vm X hX holds tag i1 i2 j1 j2 hi2
    have hrest := ih i2 j2 htrest
    have hsplit : List.range' i1 (olds.length - i1)
        = List.range' i1 (i2 - i1) ++ List.range' i2 (olds.length - i2) := by
      rw [show olds.length - i1 = (olds.length - i2) + (i2 - i1) by omega]
      rw [← List.range'_append i1 (i2 - i1) (olds.length - i2) 1]
      rw [show i1 + 1 * (i2 - i1) = i2 by omega]
    rw [hsplit, List.countP_append]
    exact Nat.add_le_add hop hrest

theorem sortedSecs_nodup (oc nc : List Chunk) : (sortedSecs oc nc).Nodup := by
  unfold sortedSecs
  have hperm := List.mergeSort_perm
    (((oc ++ nc).map (fun c => c.section_id)).dedup) (fun s t => decide (s ≤ t))
  exact hperm.symm.nodup (List.nodup_dedup _)

theorem sum_sections_le (S : List String) (hS : S.Nodup) (l : List Chunk)
    (p : Chunk → Bool) :
    (S.map (fun sec => (l.filter (fun c => c.section_id == sec)).countP p)).sum
      ≤ l.countP p := by
  induction l with
  | nil => simp
  | cons c l' ih =>
    have hmapeq : ∀ sec ∈ S,
        ((c :: l').filter (fun c0 => c0.section_id == sec)).countP p
          = (if (c.section_id == sec) && p c then 1 else 0)
            + (l'.filter (fun c0 => c0.section_id == sec)).countP p := by
      intro sec _
      by_cases h : c.section_id == sec
      · rw [List.filter_cons_of_pos (by simpa using h), List.countP_cons]
        by_cases hp : p c
        · rw [if_pos hp, if_pos (by simp [h, hp])]
          omega
        · rw [if_neg hp, if_neg (by simp [hp])]
          omega
      · rw [List.filter_cons_of_neg (by simpa using h)]
        rw [if_neg (by simp [h])]
        omega
    rw [List.map_congr_left hmapeq, sum_map_add_nat, List.countP_cons]
    have hind : (S.map (fun sec => if (c.section_id == sec) && p c then 1 else 0)).sum
        ≤ (if p c then 1 else 0) := by
      by_cases hp : p c
      · rw [if_pos hp]
        have he : ∀ sec ∈ S, (if (c.section_id == sec) && p c then 1 else 0)
            = (if (c.section_id == sec) then 1 else 0) := by
          intro sec _
          simp [hp]
        rw [List.map_congr_left he, sum_indicator_eq_countP]
        have he2 : S.countP (fun sec => c.section_id == sec)
            = S.countP (fun sec => sec == c.section_id) := by
          refine List.countP_congr ?_
          intro sec _
          constructor
          · intro hx
            simp only [beq_iff_eq] at hx ⊢
            exact hx.symm
          · intro hx
            simp only [beq_iff_eq] at hx ⊢
            exact hx.symm
        rw [he2]
        exact List.nodup_iff_count_le_one.1 hS c.section_id
      · rw [if_neg hp]
        have he : ∀ sec ∈ S, (if (c.section_id == sec) && p c then 1 else 0) = 0 := by
          intro sec _
          simp [hp]
        rw [List.map_congr_left he]
        simp
    omega

theorem detect_cover_old (old_chunks new_chunks : List Chunk) (vm : VersionMap)
    (X : String)
    (hnd : (old_chunks.map (fun c => c.chunk_id)).Nodup)
    (hX : '→' ∉ X.data)
    (harr : ∀ c ∈ old_chunks, '→' ∉ c.chunk_id.data) :
    (detect_changes old_chunks new_chunks vm).countP (fun r => coversOldSide r X)
      ≤ 1 := by
  unfold detect_changes
  rw [countP_flatMap_sum]
  have hsec : ∀ sec ∈ sortedSecs old_chunks new_chunks,
      ((get_opcodes
          ((old_chunks.filter (fun c => c.section_id == sec)).map (fun c => c.content))
          ((new_chunks.filter (fun c => c.section_id == sec)).map
            (fun c => c.content))).flatMap
        (processOpcode sec (old_chunks.filter (fun c => c.section_id == sec))
          (new_chunks.filter (fun c => c.section_id == sec)) vm)).countP
        (fun r => coversOldSide r X)
      ≤ ((old_chunks.filter (fun c => c.section_id == sec)).countP
          (fun c => c.chunk_id == X)) := by
    intro sec _
    have htile := get_opcodes_tile
      ((old_chunks.filter (fun c => c.section_id == sec)).map (fun c => c.content))
      ((new_chunks.filter (fun c => c.section_id == sec)).map (fun c => c.content))
    rw [List.length_map, List.length_map] at htile
    have h1 := opsList_cover_old sec
      (old_chunks.filter (fun c => c.section_id == sec))
      (new_chunks.filter (fun c => c.section_id == sec)) vm X hX
      (fun c hc => harr c (List.mem_of_mem_filter hc)) _ 0 0 htile
    rw [Nat.sub_zero] at h1
    refine le_trans h1 ?_
    rw [← List.range_eq_range']
    exact le_of_eq (countP_range_getD
      (old_chunks.filter (fun c => c.section_id == sec)) (fun c => c.chunk_id == X))
  refine le_trans (List.sum_le_sum hsec) ?_
  refine le_trans (sum_sections_le _ (sortedSecs_nodup old_chunks new_chunks)
    old_chunks _) ?_
  refine countP_le_one_of_unique old_chunks _ (hnd.of_map) ?_
  intro x hx y hy hpx hpy
  have hx' : x.chunk_id = X := by simpa using hpx
  have hy' : y.chunk_id = X := by simpa using hpy
  exact List.inj_on_of_nodup_map hnd hx hy (by rw [hx', hy'])

theorem processDelete_cover_new (sec : String) (olds : List Chunk) (vm : VersionMap)
    (i1 i2 : Nat) (X : String) :
    (processDelete sec olds vm i1 i2).countP (fun r => coversNewSide r X) = 0 := by
  rw [List.countP_eq_zero]
  intro r hr
  unfold processDelete at hr
  obtain ⟨t, _, hrec⟩ := List.mem_map.1 hr
  rw [← hrec]
  by_cases h : truthyOpt (vm_get vm (olds.getD t default).chunk_id)
  · simp only [List.getD_eq_getElem?_getD] at h ⊢
    simp [h, coversNewSide]
  · simp only [List.getD_eq_getElem?_getD] at h ⊢
    simp [h, coversNewSide]

theorem processInsert_cover_new (sec : String) (news : List Chunk) (vm : VersionMap)
    (j1 j2 : Nat) (X : String) :
    (processInsert sec news vm j1 j2).countP (fun r => coversNewSide r X)
      ≤ (List.range' j1 (j2 - j1)).countP
          (fun t => (news.getD t default).chunk_id == X) := by
  unfold processInsert
  refine countP_filterMap_le _ _ _ _ ?_
  intro idx _ r hsome hcov
  simp at hsome
  rw [← hsome.2] at hcov
  simp [coversNewSide] at hcov
  rw [List.getD_eq_getElem?_getD]
  simp [hcov]

theorem processReplace_cover_new (sec : String) (olds news : List Chunk)
    (i1 i2 j1 j2 : Nat) (X : String)
    (hX : '→' ∉ X.data)
    (hnews : ∀ c ∈ news, '→' ∉ c.chunk_id.data)
    (hj2 : j2 ≤ news.length) :
    (processReplace sec olds news i1 i2 j1 j2).countP (fun r => coversNewSide r X)
      ≤ (List.range' j1 (j2 - j1)).countP
          (fun t => (news.getD t default).chunk_id == X) := by
  unfold processReplace
  rw [List.countP_map]
  have h1 : (List.range (min (i2 - i1) (j2 - j1))).countP
        ((fun r => coversNewSide r X) ∘ fun k =>
          { section_id := sec,
            chunk_id := (olds.getD (i1 + k) default).chunk_id ++ "→"
              ++ (news.getD (j1 + k) default).chunk_id,
            change_type := ChangeType.modified,
            old_content := (olds.getD (i1 + k) default).content,
            new_content := (news.getD (j1 + k) default).content,
            similarity_score := compute_similarity (olds.getD (i1 + k) default).content
              (news.getD (j1 + k) default).content,
            moved_to := none })
      ≤ (List.range (min (i2 - i1) (j2 - j1))).countP
          (fun k => (news.getD (j1 + k) default).chunk_id == X) := by
    refine List.countP_mono_left ?_
    intro k hk hcov
    have hklt : j1 + k < news.length := by
      have := List.mem_range.1 hk
      omega
    have hmem : news.getD (j1 + k) default ∈ news := getD_mem_of_lt news _ hklt
    have harr_new : '→' ∉ (news.getD (j1 + k) default).chunk_id.data := hnews _ hmem
    simp only [Function.comp, coversNewSide] at hcov
    simp only [Bool.or_eq_true, Bool.and_eq_true] at hcov
    rcases hcov with hcov | hcov
    · simp at hcov
    · have hsuf := List.isSuffixOf_iff_suffix.1 hcov.2
      have hsu : ('→' :: X.data) <:+
          ((olds.getD (i1 + k) default).chunk_id.data
            ++ '→' :: (news.getD (j1 + k) default).chunk_id.data) := by
        simpa [String.data_append, List.append_assoc] using hsuf
      have heq := arrow_suffix_eq X.data _ _ hX harr_new hsu
      have hXeq : X = (news.getD (j1 + k) default).chunk_id := String.ext heq
      rw [List.getD_eq_getElem?_getD] at hXeq
      simp [hXeq]
  refine le_trans h1 ?_
  refine le_trans ((List.range_sublist.2 (min_le_right _ _)).countP_le _) ?_
  rw [range'_shift_countP]

theorem processOpcode_cover_new (sec : String) (olds news : List Chunk)
    (vm : VersionMap) (X : String) (hX : '→' ∉ X.data)
    (hnews : ∀ c ∈ news, '→' ∉ c.chunk_id.data)
    (tag : OpTag) (i1 i2 j1 j2 : Nat) (hj2 : j2 ≤ news.length) :
    (processOpcode sec olds news vm (tag, i1, i2, j1, j2)).countP
        (fun r => coversNewSide r X)
      ≤ (List.range' j1 (j2 - j1)).countP
          (fun t => (news.getD t default).chunk_id == X) := by
  cases tag with
  | equal => simp [processOpcode]
  | delete =>
    have := processDelete_cover_new sec olds vm i1 i2 X
    show (processDelete sec olds vm i1 i2).countP (fun r => coversNewSide r X) ≤ _
    rw [this]
    exact Nat.zero_le _
  | insert => exact processInsert_cover_new sec news vm j1 j2 X
  | replace => exact processReplace_cover_new sec olds news i1 i2 j1 j2 X hX hnews hj2

theorem opsList_cover_new (sec : String) (olds news : List Chunk) (vm : VersionMap)
    (X : String) (hX : '→' ∉ X.data)
    (hnews : ∀ c ∈ news, '→' ∉ c.chunk_id.data) :
    ∀ (ops : List (OpTag × Nat × Nat × Nat × Nat)) (i j : Nat),
      OpsTile i j olds.length news.length ops →
      (ops.flatMap (processOpcode sec olds news vm)).countP
          (fun r => coversNewSide r X)
        ≤ (List.range' j (news.length - j)).countP
            (fun t => (news.getD t default).chunk_id == X) := by
  intro ops
  induction ops with
  | nil =>
    intro i j _
    simp
  | cons op rest ih =>
    intro i j htile
    obtain ⟨tag, i1, i2, j1, j2⟩ := op
    obtain ⟨h1, h2, h3, h4, htrest⟩ := htile
    subst h1
    subst h2
    have hj2 : j2 ≤ news.length := (opsTile_le htrest).2
    rw [List.flatMap_cons, List.countP_append]
    have hop := processOpcode_cover_new sec olds news vm X hX hnews tag i1 i2 j1 j2 hj2
    have hrest := ih i2 j2 htrest
    have hsplit : List.range' j1 (news.length - j1)
        = List.range' j1 (j2 - j1) ++ List.range' j2 (news.length - j2) := by
      rw [show news.length - j1 = (news.length - j2) + (j2 - j1) by omega]
      rw [← List.range'_append j1 (j2 - j1) (news.length - j2) 1]
      rw [show j1 + 1 * (j2 - j1) = j2 by omega]
    rw [hsplit, List.countP_append]
    exact Nat.add_le_add hop hrest

theorem detect_cover_new (old_chunks new_chunks : List Chunk) (vm : VersionMap)
    (X : String)
    (hnd : (new_chunks.map (fun c => c.chunk_id)).Nodup)
    (hX : '→' ∉ X.data)
    (harr : ∀ c ∈ new_chunks, '→' ∉ c.chunk_id.data) :
    (detect_changes old_chunks new_chunks vm).countP (fun r => coversNewSide r X)
      ≤ 1 := by
  unfold detect_changes
  rw [countP_flatMap_sum]
  have hsec : ∀ sec ∈ sortedSecs old_chunks new_chunks,
      ((get_opcodes
          ((old_chunks.filter (fun c => c.section_id == sec)).map (fun c => c.content))
          ((new_chunks.filter (fun c => c.section_id == sec)).map
            (fun c => c.content))).flatMap
        (processOpcode sec (old_chunks.filter (fun c => c.section_id == sec))
          (new_chunks.filter (fun c => c.section_id == sec)) vm)).countP
        (fun r => coversNewSide r X)
      ≤ ((new_chunks.filter (fun c => c.section_id == sec)).countP
          (fun c => c.chunk_id == X)) := by
    intro sec _
    have htile := get_opcodes_tile
      ((old_chunks.filter (fun c => c.section_id == sec)).map (fun c => c.content))
      ((new_chunks.filter (fun c => c.section_id == sec)).map (fun c => c.content))
    rw [List.length_map, List.length_map] at htile
    have h1 := opsList_cover_new sec
      (old_chunks.filter (fun c => c.section_id == sec))
      (new_chunks.filter (fun c => c.section_id == sec)) vm X hX
      (fun c hc => harr c (List.mem_of_mem_filter hc)) _ 0 0 htile
    rw [Nat.sub_zero] at h1
    refine le_trans h1 ?_
    rw [← List.range_eq_range']
    exact le_of_eq (countP_range_getD
      (new_chunks.filter (fun c => c.section_id == sec)) (fun c => c.chunk_id == X))
  refine le_trans (List.sum_le_sum hsec) ?_
  refine le_trans (sum_sections_le _ (sortedSecs_nodup old_chunks new_chunks)
    new_chunks _) ?_
  refine countP_le_one_of_unique new_chunks _ (hnd.of_map) ?_
  intro x hx y hy hpx hpy
  have hx' : x.chunk_id = X := by simpa using hpx
  have hy' : y.chunk_id = X := by simpa using hpy
  exact List.inj_on_of_nodup_map hnd hx hy (by rw [hx', hy'])

/-- **C1** (counterexample): coverage is not "exactly one".  On two
identical one-chunk inputs the detector emits no Change record at all, so
the (old and new) chunk `c1` appears in zero records — and it is not a
new chunk skipped by the insert-skip-on-move rule (the version map is
empty). -/
theorem c1_counterexample :
    detect_changes [⟨"1", "c1", none, "hello"⟩] [⟨"1", "c1", none, "hello"⟩] [] = []
      ∧ ((detect_changes [⟨"1", "c1", none, "hello"⟩]
            [⟨"1", "c1", none, "hello"⟩] []).countP
          (fun r => appearsIn r "c1" "hello")) ≠ 1 := by
  constructor
  · with_unfolding_all rfl
  · have h : detect_changes [⟨"1", "c1", none, "hello"⟩]
        [⟨"1", "c1", none, "hello"⟩] [] = [] := by
      with_unfolding_all rfl
    rw [h]
    decide

/-- **C1** (amended): coverage is "at most one", not "exactly one".
When chunk ids are globally unique on each side and contain no `→`
character (the separator of composite MODIFIED ids), a chunk id is the
old-side subject of at most one emitted Change record (as the id of a
REMOVED/MOVED record or the left half of a MODIFIED composite id) and
the new-side subject of at most one record (as the id of an ADDED record
or the right half of a MODIFIED composite id).  Chunks inside `equal`
runs, old chunks of a `replace` run beyond the paired span, and new
chunks skipped by the insert-skip-on-move rule appear in no record. -/
theorem c1_coverage_at_most_one (old_chunks new_chunks : List Chunk)
    (vm : VersionMap) (X : String) (hX : '→' ∉ X.data)
    (hndo : (old_chunks.map (fun c => c.chunk_id)).Nodup)
    (hndn : (new_chunks.map (fun c => c.chunk_id)).Nodup)
    (harro : ∀ c ∈ old_chunks, '→' ∉ c.chunk_id.data)
    (harrn : ∀ c ∈ new_chunks, '→' ∉ c.chunk_id.data) :
    (detect_changes old_chunks new_chunks vm).countP (fun r => coversOldSide r X) ≤ 1
      ∧ (detect_changes old_chunks new_chunks vm).countP
          (fun r => coversNewSide r X) ≤ 1 :=
  ⟨detect_cover_old old_chunks new_chunks vm X hndo hX harro,
   detect_cover_new old_chunks new_chunks vm X hndn hX harrn⟩

/-- Witness for the amended C1 coverage bound at a concrete input: one
old chunk `a`, one new chunk `b` in the same section, producing a single
MODIFIED record `a→b`. -/
theorem c1_coverage_at_most_one_witness :
    ('→' ∉ "a".data)
      ∧ (([⟨"1", "a", none, "x"⟩] : List Chunk).map (fun c => c.chunk_id)).Nodup
      ∧ (([⟨"1", "b", none, "y"⟩] : List Chunk).map (fun c => c.chunk_id)).Nodup
      ∧ (∀ c ∈ ([⟨"1", "a", none, "x"⟩] : List Chunk), '→' ∉ c.chunk_id.data)
      ∧ (∀ c ∈ ([⟨"1", "b", none, "y"⟩] : List Chunk), '→' ∉ c.chunk_id.data)
      ∧ (detect_changes [⟨"1", "a", none, "x"⟩] [⟨"1", "b", none, "y"⟩] []).countP
          (fun r => coversOldSide r "a") ≤ 1
      ∧ (detect_changes [⟨"1", "a", none, "x"⟩] [⟨"1", "b", none, "y"⟩] []).countP
          (fun r => coversNewSide r "a") ≤ 1 := by
  refine ⟨by decide, by decide, by decide, by decide, by decide, ?_, ?_⟩
  · exact (c1_coverage_at_most_one [⟨"1", "a", none, "x"⟩] [⟨"1", "b", none, "y"⟩]
      [] "a" (by decide) (by decide) (by decide) (by decide) (by decide)).1
  · exact (c1_coverage_at_most_one [⟨"1", "a", none, "x"⟩] [⟨"1", "b", none, "y"⟩]
      [] "a" (by decide) (by decide) (by decide) (by decide) (by decide)).2
